import Mathlib

/-!
# Verification of the queueing-simulation core of `src/app.py`

`src/app.py` implements a single-queue, multi-server waiting-line simulation
on top of the SimPy discrete-event library, plus a Streamlit presentation
layer.  This file gives a shallow embedding of the simulation core
(`run_simulation`, app.py lines 9-62) and of the empty-result check of the
caller (`main`, app.py lines 146-148), and proves the spec's claims about it.

## How the embedding mirrors the source

SimPy's `Environment` keeps a binary heap of scheduled events keyed by
`(time, priority, eid)` where `priority` is `URGENT = 0` for process
`Initialize` events and for the stop event created by `env.run(until=...)`,
and `NORMAL = 1` for `Timeout` events and for triggered request/release
events; `eid` is a counter incremented once per scheduled event.
`env.run(until=sim_time)` schedules a stop event at `(sim_time, URGENT)` and
pops events in key order until the stop event is popped; events with a key
at or after the stop event's key are never processed.

The two coroutines of app.py are compiled into event kinds handled by `step`:

* `customer_generator` (app.py lines 51-57): its `Initialize` event is
  `EvKind.genInit`; each `yield env.timeout(inter_arrival)` is
  `EvKind.genTimeout n` where `n` is the id the generator will give to the
  customer it spawns when that timeout fires.
* `service_customer` (app.py lines 27-49): its `Initialize` event is
  `EvKind.custInit i` (this is where `arrival_time = env.now` is read and
  `cashier.request()` is issued); the triggered request event is
  `EvKind.reqGrant i arrival` (on processing it the service duration is
  drawn and `yield env.timeout(service_duration)` runs); the service
  timeout is `EvKind.svcDone i arrival start dur` (on processing it the
  record is appended, then leaving the `with` block releases the slot:
  the request is removed from the resource's user list synchronously and a
  release event `EvKind.releaseEv` is scheduled; when that release event is
  processed, SimPy's `_trigger_put` hands the freed slot to the head of the
  FIFO request queue); the customer process then terminates, which SimPy
  schedules as a no-op event, modelled as `EvKind.procEnd`.

`simpy.Resource` keeps its pending requests in a FIFO `put_queue`; a request
is granted (`users.append`, `event.succeed()`) either immediately on arrival
if `len(users) < capacity`, or when `_trigger_put` runs on a release; in
both cases only the head of the queue is examined (`_do_put` returns `None`,
so `_trigger_put` stops after the first queue entry).  `triggerPut` below is
a direct transcription.

The Python `random` module is process-global state: `random.seed(s)` resets
it, `random.randint(lo, hi)` draws `lo + (raw mod (hi - lo + 1))` from it
and advances it.  The Mersenne-Twister raw stream itself is opaque library
code, modelled here by the concrete stand-in `mtStream`; no claim depends on
the actual values of the stream, only on draws being deterministic functions
of the seed and on `randint lo hi x` lying in `[lo, hi]` when `lo ≤ hi`.
The invariant lemmas are stated for an arbitrary stream `Nat → Nat`.

All quantities are naturals: the app's sidebar (app.py lines 87-120)
constrains every parameter to a positive integer range (`sim_time ≥ 100`,
interarrival and service bounds in `[1, 60]`, cashiers in `[1, 10]`,
seed in `[0, 999999]`), and all simulated clock values are sums of such
draws.  The int subtractions computed in app.py lines 36-37 are modelled
on `Int`.  The event loop is driven by explicit fuel; `engineFuel` is a
generous bound on the number of events popped before the stop event, and
every universal statement below holds for every fuel value.
-/

set_option maxRecDepth 100000

namespace App

/-- One entry of the `records` list built in `service_customer`
(app.py lines 39-49), i.e. one row of the returned DataFrame.  The Python
code stores `customer_id` as the string `f"Customer {i}"`; we keep the
integer `i` (the spec compares customers only by index). -/
structure Record where
  customer_id : Nat
  arrival_time : Nat
  start_service : Nat
  finish_time : Nat
  queue_time : Int
  service_duration : Nat
  system_time : Int
  deriving DecidableEq, Repr

/-- The kinds of events that occur in this simulation (see the module
docstring for the correspondence with app.py / SimPy). -/
inductive EvKind where
  | stop
  | genInit
  | genTimeout (nextId : Nat)
  | custInit (id : Nat)
  | reqGrant (id arrival : Nat)
  | svcDone (id arrival start dur : Nat)
  | releaseEv
  | procEnd
  deriving DecidableEq, Repr

/-- A scheduled event: SimPy heap entries are `(time, priority, eid, event)`
with `URGENT = 0` and `NORMAL = 1` as priorities. -/
structure Event where
  time : Nat
  prio : Nat
  eid : Nat
  kind : EvKind
  deriving DecidableEq, Repr

/-- The heap order on `(time, priority, eid)` keys (lexicographic, as in
Python's `heapq` on tuples; eids are unique so the order is total). -/
def keyLe (a b : Event) : Prop :=
  a.time < b.time ∨
    (a.time = b.time ∧
      (a.prio < b.prio ∨ (a.prio = b.prio ∧ a.eid ≤ b.eid)))

instance (a b : Event) : Decidable (keyLe a b) := by
  unfold keyLe; exact inferInstance

/-- Ordered insertion into the event list, kept sorted by `keyLe`; models
`heapq.heappush`. -/
def insertEv (e : Event) : List Event → List Event
  | [] => [e]
  | f :: rest => if keyLe e f then e :: f :: rest else f :: insertEv e rest

/-- The seven parameters of `run_simulation` other than the seed
(app.py lines 9-16). -/
structure Params where
  num_cashiers : Nat
  sim_time : Nat
  min_interarrival : Nat
  max_interarrival : Nat
  min_service : Nat
  max_service : Nat
  deriving DecidableEq, Repr

/-- `random.randint lo hi` applied to a raw draw `x`: a uniform integer in
`[lo, hi]` is `lo + (x mod (hi - lo + 1))`.  For `lo > hi` Python raises
`ValueError`; the app's input form rules that case out (app.py lines
92-108 force `min ≤ max`), and no theorem below relies on this function
outside `lo ≤ hi`. -/
def randint (lo hi x : Nat) : Nat := lo + x % (hi + 1 - lo)

/-- The full state of `env.run`: the clock, the event heap, the eid counter,
the resource's user count and FIFO request queue (`(id, arrival_time)`
pairs), the `records` list of app.py line 23, the position in the random
stream, and whether the stop event has fired. -/
structure SimState where
  now : Nat
  heap : List Event
  nextEid : Nat
  users : Nat
  putQueue : List (Nat × Nat)
  records : List Record
  pos : Nat
  halted : Bool
  deriving Repr

/-- Schedule a new event `delay` time units from now with the given
priority, consuming one eid (SimPy `Environment.schedule`). -/
def sched (delay prio : Nat) (k : EvKind) (s : SimState) : SimState :=
  { s with
    heap := insertEv ⟨s.now + delay, prio, s.nextEid, k⟩ s.heap,
    nextEid := s.nextEid + 1 }

/-- SimPy `Resource._trigger_put`: examine the head of the FIFO request
queue and, if a slot is free (`users < capacity`), grant it: occupy a slot,
pop the request, and schedule its success event at the current time with
NORMAL priority.  Only the head is ever examined (`_do_put` returns `None`,
so the loop in `_trigger_put` breaks after the first entry). -/
def triggerPut (p : Params) (s : SimState) : SimState :=
  match s.putQueue with
  | [] => s
  | (i, a) :: rest =>
    if s.users < p.num_cashiers then
      sched 0 1 (.reqGrant i a) { s with users := s.users + 1, putQueue := rest }
    else s

/-- One iteration of SimPy's event loop (`Environment.step`): pop the event
with the least `(time, priority, eid)` key, advance the clock to its time,
and run its callbacks.  The per-kind branches transcribe app.py lines 27-57
as described in the module docstring. -/
def step (p : Params) (stream : Nat → Nat) (s : SimState) : SimState :=
  if s.halted then s
  else
    match s.heap with
    | [] => { s with halted := true }
    | e :: rest =>
      let s1 : SimState := { s with now := e.time, heap := rest }
      match e.kind with
      | .stop =>
          -- env.run(until=sim_time) raises StopSimulation here.
          { s1 with halted := true }
      | .genInit =>
          -- customer_generator starts: i := 1, draw inter_arrival,
          -- yield env.timeout(inter_arrival)  (app.py lines 52-56).
          sched (randint p.min_interarrival p.max_interarrival (stream s1.pos)) 1
            (.genTimeout 1) { s1 with pos := s1.pos + 1 }
      | .genTimeout n =>
          -- the generator's timeout fires: spawn service_customer for
          -- customer n (an Initialize event at the current time, URGENT),
          -- then i += 1, draw the next gap, yield the next timeout
          -- (app.py lines 53-57).
          let s2 := sched 0 0 (.custInit n) s1
          sched (randint p.min_interarrival p.max_interarrival (stream s2.pos)) 1
            (.genTimeout (n + 1)) { s2 with pos := s2.pos + 1 }
      | .custInit i =>
          -- service_customer starts: arrival_time = env.now, then
          -- cashier.request() appends to the FIFO queue and runs
          -- _trigger_put (app.py lines 28-30).
          triggerPut p { s1 with putQueue := s1.putQueue ++ [(i, e.time)] }
      | .reqGrant i a =>
          -- the request succeeds: start_service_time = env.now, draw
          -- service_duration, yield env.timeout(service_duration)
          -- (app.py lines 31-33).
          let d := randint p.min_service p.max_service (stream s1.pos)
          sched d 1 (.svcDone i a e.time d) { s1 with pos := s1.pos + 1 }
      | .svcDone i a st d =>
          -- the service timeout fires: finish_time = env.now, the record is
          -- appended (app.py lines 34-49); leaving the with-block releases
          -- the slot synchronously and schedules the release event; then
          -- the process terminates (a no-op event).
          let r : Record :=
            { customer_id := i, arrival_time := a, start_service := st,
              finish_time := e.time,
              queue_time := (st : Int) - (a : Int),
              service_duration := d,
              system_time := (e.time : Int) - (a : Int) }
          sched 0 1 .procEnd
            (sched 0 1 .releaseEv
              { s1 with records := s1.records ++ [r], users := s1.users - 1 })
      | .releaseEv =>
          -- the release event's callback is _trigger_put: hand the freed
          -- slot to the head of the FIFO queue, if any.
          triggerPut p s1
      | .procEnd => s1

/-- Run the event loop for at most `fuel` iterations (it stops by itself
once the stop event has been popped). -/
def simLoop (p : Params) (stream : Nat → Nat) : Nat → SimState → SimState
  | 0, s => s
  | fuel + 1, s => simLoop p stream fuel (step p stream s)

/-- The state just before the loop runs: `env.process(customer_generator(...))`
has scheduled the generator's Initialize event at `(0, URGENT, eid 0)`
(app.py line 59) and `env.run(until=sim_time)` has scheduled the stop event
at `(sim_time, URGENT, eid 1)` (app.py line 60). -/
def initState (sim_time : Nat) : SimState :=
  { now := 0,
    heap := [⟨0, 0, 0, .genInit⟩, ⟨sim_time, 0, 1, .stop⟩],
    nextEid := 2, users := 0, putQueue := [], records := [], pos := 0,
    halted := false }

/-- Fuel bound for a run: before the stop event there are at most
`sim_time` generator timeouts (interarrival gaps are ≥ 1 for the app's
parameter ranges) and at most `sim_time` customers, each contributing at
most five events, plus the two initial events; `8 * sim_time + 8` is a
generous upper bound.  Every universal theorem below holds for every fuel
value, so nothing depends on this bound being exact. -/
def engineFuel (sim_time : Nat) : Nat := 8 * sim_time + 8

/-- Concrete stand-in for the raw output stream of CPython's seeded
Mersenne Twister (`mtStream seed n` is the n-th raw draw after
`random.seed(seed)`).  The true generator is opaque library code; no claim
below depends on the stream's values, only on its determinism in the seed. -/
def mtStream (seed : Nat) : Nat → Nat :=
  fun n => (seed * 1103515245 + n * 12820163 + 11) % 16777216

/-- The state of the process-global `random` module: the raw stream it will
produce and the position of the next draw.  `random.seed(s)` replaces the
whole state; each `randint` consumes one position. -/
structure PyRandState where
  stream : Nat → Nat
  pos : Nat

/-- The final loop state of one engine invocation with the given parameters
and seed (after `random.seed(random_seed)`, app.py line 21, the stream is
`mtStream random_seed` starting at position 0). -/
def finalState (num_cashiers sim_time min_interarrival max_interarrival
    min_service max_service random_seed : Nat) : SimState :=
  simLoop
    ⟨num_cashiers, sim_time, min_interarrival, max_interarrival,
      min_service, max_service⟩
    (mtStream random_seed) (engineFuel sim_time) (initState sim_time)

/-- `run_simulation` (app.py lines 9-62).  It receives the ambient state
`g0` of the global `random` module and immediately discards it:
`random.seed(random_seed)` (line 21) resets the module before any draw.
The function returns the list of records (the DataFrame of line 62)
together with the state the global random module is left in. -/
def run_simulation (num_cashiers sim_time min_interarrival max_interarrival
    min_service max_service random_seed : Nat) (g0 : PyRandState) :
    List Record × PyRandState :=
  let fin := finalState num_cashiers sim_time min_interarrival
    max_interarrival min_service max_service random_seed
  (fin.records, { stream := mtStream random_seed, pos := fin.pos })

/-- Outcome of the empty-data check in `main`. -/
inductive MainOutcome where
  | emptyDataError
  | report
  deriving DecidableEq, Repr

/-- app.py lines 146-148: after running both scenarios, `main` checks
`if df_scenario_a.empty or df_scenario_b.empty`, shows
`st.error("Data simulasi kosong. Silakan coba lagi dengan parameter berbeda.")`
and returns normally (no exception); otherwise it proceeds to the report. -/
def main_empty_check (dfA dfB : List Record) : MainOutcome :=
  if dfA = [] ∨ dfB = [] then .emptyDataError else .report

/-! ## Heap order lemmas -/

theorem keyLe_total (a b : Event) : keyLe a b ∨ keyLe b a := by
  unfold keyLe; omega

theorem keyLe_trans {a b c : Event} (h1 : keyLe a b) (h2 : keyLe b c) :
    keyLe a c := by
  unfold keyLe at h1 h2 ⊢; omega

theorem keyLe_time {a b : Event} (h : keyLe a b) : a.time ≤ b.time := by
  unfold keyLe at h; omega

theorem mem_insertEv {x e : Event} {l : List Event} :
    x ∈ insertEv e l ↔ x = e ∨ x ∈ l := by
  induction l with
  | nil => simp [insertEv]
  | cons f rest ih =>
    by_cases h : keyLe e f
    · simp [insertEv, h]
    · simp only [insertEv, if_neg h, List.mem_cons, ih]
      tauto

theorem sorted_insertEv {e : Event} {l : List Event}
    (h : l.Pairwise keyLe) : (insertEv e l).Pairwise keyLe := by
  induction l with
  | nil => simp [insertEv]
  | cons f rest ih =>
    rcases List.pairwise_cons.mp h with ⟨hf, hrest⟩
    by_cases hef : keyLe e f
    · simp only [insertEv, if_pos hef]
      refine List.pairwise_cons.mpr ⟨?_, h⟩
      intro x hx
      rcases List.mem_cons.mp hx with rfl | hx
      · exact hef
      · exact keyLe_trans hef (hf x hx)
    · simp only [insertEv, if_neg hef]
      refine List.pairwise_cons.mpr ⟨?_, ih hrest⟩
      intro x hx
      rcases mem_insertEv.mp hx with h3 | hx
      · exact h3.symm ▸ (keyLe_total e f).resolve_left hef
      · exact hf x hx

theorem pairwise_insertEv {R : Event → Event → Prop} {e : Event}
    {l : List Event} (h : l.Pairwise R)
    (h1 : ∀ x ∈ l, R e x) (h2 : ∀ x ∈ l, R x e) :
    (insertEv e l).Pairwise R := by
  induction l with
  | nil => simp [insertEv]
  | cons f rest ih =>
    rcases List.pairwise_cons.mp h with ⟨hf, hrest⟩
    by_cases hef : keyLe e f
    · simp only [insertEv, if_pos hef]
      refine List.pairwise_cons.mpr ⟨?_, h⟩
      intro x hx
      exact h1 x hx
    · simp only [insertEv, if_neg hef]
      refine List.pairwise_cons.mpr ⟨?_, ?_⟩
      · intro x hx
        rcases mem_insertEv.mp hx with rfl | hx
        · exact h2 f (List.mem_cons_self f rest)
        · exact hf x hx
      · exact ih hrest (fun x hx => h1 x (List.mem_cons_of_mem f hx))
          (fun x hx => h2 x (List.mem_cons_of_mem f hx))

/-! ## Customer (id, arrival) and (id, start) bookkeeping

To state the ordering claims we collect, from a simulation state, the pairs
`(customer id, arrival_time)` of every customer currently represented
anywhere in the state (as a pending spawn, a queued request, a granted or
running service, or a finished record), and likewise the pairs
`(customer id, start_service)` of every customer that has been granted a
server slot. -/

def eventPairs (e : Event) : List (Nat × Nat) :=
  match e.kind with
  | .custInit i => [(i, e.time)]
  | .reqGrant i a => [(i, a)]
  | .svcDone i a _ _ => [(i, a)]
  | _ => []

/-- Like `eventPairs` but skipping pending `custInit` spawns. -/
def coreEventPairs (e : Event) : List (Nat × Nat) :=
  match e.kind with
  | .reqGrant i a => [(i, a)]
  | .svcDone i a _ _ => [(i, a)]
  | _ => []

/-- The `(id, start_service)` pair of a granted or running service: a
`reqGrant` event starts service at its own scheduled time. -/
def startEventPairs (e : Event) : List (Nat × Nat) :=
  match e.kind with
  | .reqGrant i _ => [(i, e.time)]
  | .svcDone i _ st _ => [(i, st)]
  | _ => []

def recPair (r : Record) : Nat × Nat := (r.customer_id, r.arrival_time)

def recStartPair (r : Record) : Nat × Nat := (r.customer_id, r.start_service)

def collect (f : Event → List (Nat × Nat)) : List Event → List (Nat × Nat)
  | [] => []
  | e :: rest => f e ++ collect f rest

theorem mem_collect {f : Event → List (Nat × Nat)} {x : Nat × Nat}
    {l : List Event} : x ∈ collect f l ↔ ∃ e ∈ l, x ∈ f e := by
  induction l with
  | nil => simp [collect]
  | cons e rest ih => simp [collect, ih]

/-- Every customer currently represented in the state, with arrival time. -/
def statePairs (s : SimState) : List (Nat × Nat) :=
  collect eventPairs s.heap ++ s.putQueue ++ s.records.map recPair

/-- As `statePairs` but without pending `custInit` spawns. -/
def corePairs (s : SimState) : List (Nat × Nat) :=
  collect coreEventPairs s.heap ++ s.putQueue ++ s.records.map recPair

/-- Every customer that has been granted a slot, with service start time. -/
def startPairs (s : SimState) : List (Nat × Nat) :=
  collect startEventPairs s.heap ++ s.records.map recStartPair

/-! ## The run invariant -/

/-- Per-event well-formedness, relative to the parameters and the clock. -/
def EvWF (p : Params) (now : Nat) (e : Event) : Prop :=
  match e.kind with
  | .stop => e.time = p.sim_time ∧ e.prio = 0
  | .genInit => True
  | .genTimeout _ => p.min_interarrival ≤ e.time ∧ e.prio = 1
  | .custInit _ =>
      p.min_interarrival ≤ e.time ∧ e.time < p.sim_time ∧ e.prio = 0
  | .reqGrant _ a =>
      p.min_interarrival ≤ a ∧ a ≤ e.time ∧ a < p.sim_time ∧
        e.time ≤ now ∧ e.prio = 1
  | .svcDone _ a st d =>
      p.min_interarrival ≤ a ∧ a ≤ st ∧ a < p.sim_time ∧ st ≤ now ∧
        st + d = e.time ∧ p.min_service ≤ d ∧ e.prio = 1
  | .releaseEv => True
  | .procEnd => True

/-- Well-formedness of an emitted Customer Record. -/
def RecordWF (p : Params) (r : Record) : Prop :=
  r.queue_time = (r.start_service : Int) - (r.arrival_time : Int) ∧
  r.system_time = (r.finish_time : Int) - (r.arrival_time : Int) ∧
  r.finish_time = r.start_service + r.service_duration ∧
  r.arrival_time ≤ r.start_service ∧
  p.min_service ≤ r.service_duration ∧
  r.finish_time < p.sim_time ∧
  r.arrival_time < p.sim_time ∧
  p.min_interarrival ≤ r.arrival_time

/-- Whether an event kind belongs to the arrival generator. -/
def isGen : EvKind → Prop
  | .genInit => True
  | .genTimeout _ => True
  | _ => False

/-- The inductive invariant of the event loop, preserved by `step`. -/
structure Inv (p : Params) (s : SimState) : Prop where
  sorted : s.heap.Pairwise keyLe
  hwf : ∀ e ∈ s.heap, EvWF p s.now e
  timeLB : ∀ e ∈ s.heap, s.now ≤ e.time
  stopEx : s.halted = false → ∃ e ∈ s.heap, e.kind = EvKind.stop
  eidLt : ∀ e ∈ s.heap, e.eid < s.nextEid
  eidNodup : s.heap.Pairwise (fun a b => a.eid ≠ b.eid)
  genUnique : ∀ e ∈ s.heap, ∀ f ∈ s.heap, isGen e.kind → isGen f.kind → e = f
  genInitEmpty : ∀ e ∈ s.heap, e.kind = EvKind.genInit →
    ∀ x ∈ statePairs s, False
  genDom : ∀ e ∈ s.heap, ∀ n, e.kind = EvKind.genTimeout n →
    ∀ x ∈ statePairs s, x.1 < n ∧ x.2 ≤ e.time
  queueWF : ∀ x ∈ s.putQueue,
    p.min_interarrival ≤ x.2 ∧ x.2 ≤ s.now ∧ x.2 < p.sim_time
  recWF : ∀ r ∈ s.records, RecordWF p r
  recFinLB : ∀ r ∈ s.records, r.finish_time ≤ s.now
  recSorted : s.records.Pairwise (fun a b => a.finish_time ≤ b.finish_time)
  pairsMono : ∀ x ∈ statePairs s, ∀ y ∈ statePairs s, x.1 < y.1 → x.2 ≤ y.2

theorem inv_init (p : Params) : Inv p (initState p.sim_time) := by
  constructor <;>
    simp [initState, statePairs, collect, eventPairs, EvWF, keyLe, isGen] <;>
    omega

/-! ## Preservation of the invariant: building blocks -/

theorem randint_ge (lo hi x : Nat) : lo ≤ randint lo hi x :=
  Nat.le_add_right _ _

theorem mem_statePairs {s : SimState} {x : Nat × Nat} :
    x ∈ statePairs s ↔
      (∃ e ∈ s.heap, x ∈ eventPairs e) ∨ x ∈ s.putQueue ∨
        ∃ r ∈ s.records, recPair r = x := by
  simp [statePairs, mem_collect, List.mem_append, or_assoc]

theorem EvWF_mono {p : Params} {n1 n2 : Nat} {e : Event} (h12 : n1 ≤ n2)
    (h : EvWF p n1 e) : EvWF p n2 e := by
  obtain ⟨t, pr, i, k⟩ := e
  cases k <;> simp only [EvWF] at h ⊢ <;> first | trivial | omega

theorem popped_lt_stop {p : Params} {s : SimState} {e : Event}
    {rest : List Event} (h : Inv p s) (hhl : s.halted = false)
    (hheap : s.heap = e :: rest) (hprio : e.prio = 1) :
    e.time < p.sim_time := by
  rcases h.stopEx hhl with ⟨f, hf, hfk⟩
  have hfwf := h.hwf f hf
  simp only [EvWF, hfk] at hfwf
  rw [hheap] at hf
  rcases List.mem_cons.mp hf with h1 | h1
  · rw [h1] at hfwf; omega
  · have hkey := (List.pairwise_cons.mp (hheap ▸ h.sorted)).1 f h1
    unfold keyLe at hkey
    omega

/-- The position counter does not occur in the invariant. -/
theorem inv_pos {p : Params} {s : SimState} (h : Inv p s) :
    Inv p { s with pos := s.pos + 1 } :=
  ⟨h.sorted, h.hwf, h.timeLB, h.stopEx, h.eidLt, h.eidNodup, h.genUnique,
   h.genInitEmpty, h.genDom, h.queueWF, h.recWF, h.recFinLB, h.recSorted,
   h.pairsMono⟩

/-- Splitting membership in the customer pairs of a state after `sched`. -/
theorem statePairs_sched_split {s : SimState} {d pr : Nat} {k : EvKind}
    {x : Nat × Nat} (hx : x ∈ statePairs (sched d pr k s)) :
    x ∈ eventPairs ⟨s.now + d, pr, s.nextEid, k⟩ ∨ x ∈ statePairs s := by
  rcases mem_statePairs.mp hx with ⟨f, hf, hxf⟩ | hq | hr
  · rcases mem_insertEv.mp hf with h1 | h2
    · exact Or.inl (h1 ▸ hxf)
    · exact Or.inr (mem_statePairs.mpr (Or.inl ⟨f, h2, hxf⟩))
  · exact Or.inr (mem_statePairs.mpr (Or.inr (Or.inl hq)))
  · exact Or.inr (mem_statePairs.mpr (Or.inr (Or.inr hr)))

theorem statePairs_sched_mem {s : SimState} {d pr : Nat} {k : EvKind}
    {x : Nat × Nat} (hx : x ∈ statePairs s) :
    x ∈ statePairs (sched d pr k s) := by
  rcases mem_statePairs.mp hx with ⟨f, hf, hxf⟩ | hq | hr
  · exact mem_statePairs.mpr
      (Or.inl ⟨f, mem_insertEv.mpr (Or.inr hf), hxf⟩)
  · exact mem_statePairs.mpr (Or.inr (Or.inl hq))
  · exact mem_statePairs.mpr (Or.inr (Or.inr hr))

/-- Popping the head event preserves the invariant (non-stop events;
the `halted` flag is unchanged). -/
theorem inv_pop {p : Params} {s : SimState} {e : Event} {rest : List Event}
    (h : Inv p s) (hheap : s.heap = e :: rest)
    (hne : e.kind ≠ EvKind.stop) :
    Inv p { s with now := e.time, heap := rest } := by
  obtain ⟨hsorted, hwf, htime, hstop, heid, hnodup, hgu, hgie, hgd, hq,
    hrw, hrf, hrs, hpm⟩ := h
  rw [hheap] at hsorted hwf htime heid hnodup hgu hgie hgd
  have hnow : s.now ≤ e.time := htime e (List.mem_cons_self _ _)
  have hkey : ∀ x ∈ rest, keyLe e x := (List.pairwise_cons.mp hsorted).1
  have hsub : ∀ x ∈ statePairs { s with now := e.time, heap := rest },
      x ∈ statePairs s := by
    intro x hx
    rcases mem_statePairs.mp hx with ⟨f, hf, hxf⟩ | hx2 | hx3
    · exact mem_statePairs.mpr
        (Or.inl ⟨f, hheap ▸ List.mem_cons_of_mem e hf, hxf⟩)
    · exact mem_statePairs.mpr (Or.inr (Or.inl hx2))
    · exact mem_statePairs.mpr (Or.inr (Or.inr hx3))
  refine ⟨(List.pairwise_cons.mp hsorted).2, ?_, ?_, ?_, ?_,
    (List.pairwise_cons.mp hnodup).2, ?_, ?_, ?_, ?_, hrw, ?_, hrs, ?_⟩
  · intro f hf
    exact EvWF_mono hnow (hwf f (List.mem_cons_of_mem e hf))
  · intro f hf
    exact keyLe_time (hkey f hf)
  · intro hhl
    rcases hstop hhl with ⟨f, hf, hfk⟩
    rw [hheap] at hf
    rcases List.mem_cons.mp hf with h1 | h1
    · exact absurd (h1 ▸ hfk) hne
    · exact ⟨f, h1, hfk⟩
  · intro f hf
    exact heid f (List.mem_cons_of_mem e hf)
  · intro f hf g hg hfg hgg
    exact hgu f (List.mem_cons_of_mem e hf) g (List.mem_cons_of_mem e hg)
      hfg hgg
  · intro f hf hk x hx
    exact hgie f (List.mem_cons_of_mem e hf) hk x (hsub x hx)
  · intro f hf n hk x hx
    exact hgd f (List.mem_cons_of_mem e hf) n hk x (hsub x hx)
  · intro x hx
    have h1 := hq x hx
    exact ⟨h1.1, le_trans h1.2.1 hnow, h1.2.2⟩
  · intro r hr
    exact le_trans (hrf r hr) hnow
  · intro x hx y hy
    exact hpm x (hsub x hx) y (hsub y hy)

/-- Popping the stop event and halting preserves the invariant. -/
theorem inv_halt {p : Params} {s : SimState} {e : Event} {rest : List Event}
    (h : Inv p s) (hheap : s.heap = e :: rest) :
    Inv p { s with now := e.time, heap := rest, halted := true } := by
  obtain ⟨hsorted, hwf, htime, hstop, heid, hnodup, hgu, hgie, hgd, hq,
    hrw, hrf, hrs, hpm⟩ := h
  rw [hheap] at hsorted hwf htime heid hnodup hgu hgie hgd
  have hnow : s.now ≤ e.time := htime e (List.mem_cons_self _ _)
  have hkey : ∀ x ∈ rest, keyLe e x := (List.pairwise_cons.mp hsorted).1
  have hsub : ∀ x ∈ statePairs
      { s with now := e.time, heap := rest, halted := true },
      x ∈ statePairs s := by
    intro x hx
    rcases mem_statePairs.mp hx with ⟨f, hf, hxf⟩ | hx2 | hx3
    · exact mem_statePairs.mpr
        (Or.inl ⟨f, hheap ▸ List.mem_cons_of_mem e hf, hxf⟩)
    · exact mem_statePairs.mpr (Or.inr (Or.inl hx2))
    · exact mem_statePairs.mpr (Or.inr (Or.inr hx3))
  refine ⟨(List.pairwise_cons.mp hsorted).2, ?_, ?_, ?_, ?_,
    (List.pairwise_cons.mp hnodup).2, ?_, ?_, ?_, ?_, hrw, ?_, hrs, ?_⟩
  · intro f hf
    exact EvWF_mono hnow (hwf f (List.mem_cons_of_mem e hf))
  · intro f hf
    exact keyLe_time (hkey f hf)
  · intro hhl
    simp at hhl
  · intro f hf
    exact heid f (List.mem_cons_of_mem e hf)
  · intro f hf g hg hfg hgg
    exact hgu f (List.mem_cons_of_mem e hf) g (List.mem_cons_of_mem e hg)
      hfg hgg
  · intro f hf hk x hx
    exact hgie f (List.mem_cons_of_mem e hf) hk x (hsub x hx)
  · intro f hf n hk x hx
    exact hgd f (List.mem_cons_of_mem e hf) n hk x (hsub x hx)
  · intro x hx
    have h1 := hq x hx
    exact ⟨h1.1, le_trans h1.2.1 hnow, h1.2.2⟩
  · intro r hr
    exact le_trans (hrf r hr) hnow
  · intro x hx y hy
    exact hpm x (hsub x hx) y (hsub y hy)

/-- The boilerplate invariant fields after scheduling any well-formed
event. -/
theorem inv_sched_aux {p : Params} {s : SimState} {d pr : Nat} {k : EvKind}
    (h : Inv p s)
    (hwfnew : EvWF p s.now ⟨s.now + d, pr, s.nextEid, k⟩) :
    (sched d pr k s).heap.Pairwise keyLe ∧
    (∀ f ∈ (sched d pr k s).heap, EvWF p (sched d pr k s).now f) ∧
    (∀ f ∈ (sched d pr k s).heap, (sched d pr k s).now ≤ f.time) ∧
    ((sched d pr k s).halted = false →
      ∃ f ∈ (sched d pr k s).heap, f.kind = EvKind.stop) ∧
    (∀ f ∈ (sched d pr k s).heap, f.eid < (sched d pr k s).nextEid) ∧
    (sched d pr k s).heap.Pairwise (fun a b => a.eid ≠ b.eid) := by
  obtain ⟨hsorted, hwf, htime, hstop, heid, hnodup, _, _, _, _, _, _, _, _⟩ := h
  refine ⟨sorted_insertEv hsorted, ?_, ?_, ?_, ?_, ?_⟩
  · intro f hf
    rcases mem_insertEv.mp hf with h1 | h2
    · exact h1 ▸ hwfnew
    · exact hwf f h2
  · intro f hf
    rcases mem_insertEv.mp hf with h1 | h2
    · rw [h1]
      exact Nat.le_add_right _ _
    · exact htime f h2
  · intro hhl
    rcases hstop hhl with ⟨f, hf, hk⟩
    exact ⟨f, mem_insertEv.mpr (Or.inr hf), hk⟩
  · intro f hf
    rcases mem_insertEv.mp hf with h1 | h2
    · rw [h1]
      exact Nat.lt_succ_self _
    · exact Nat.lt_trans (heid f h2) (Nat.lt_succ_self _)
  · refine pairwise_insertEv hnodup ?_ ?_
    · intro x hx hcc
      have h2 := heid x hx
      have h3 : s.nextEid = x.eid := hcc
      omega
    · intro x hx hcc
      have h2 := heid x hx
      have h3 : x.eid = s.nextEid := hcc
      omega

/-- Scheduling a release or process-termination event (no payload, not a
generator event) preserves the invariant. -/
theorem inv_sched_quiet {p : Params} {s : SimState} {d pr : Nat}
    {k : EvKind} (h : Inv p s)
    (hk : k = EvKind.releaseEv ∨ k = EvKind.procEnd) :
    Inv p (sched d pr k s) := by
  have hwfnew : EvWF p s.now ⟨s.now + d, pr, s.nextEid, k⟩ := by
    rcases hk with rfl | rfl <;> simp [EvWF]
  obtain ⟨hs1, hs2, hs3, hs4, hs5, hs6⟩ := inv_sched_aux h hwfnew
  have hkpairs : eventPairs ⟨s.now + d, pr, s.nextEid, k⟩ = [] := by
    rcases hk with rfl | rfl <;> simp [eventPairs]
  have hsub : ∀ x ∈ statePairs (sched d pr k s), x ∈ statePairs s := by
    intro x hx
    rcases statePairs_sched_split hx with h1 | h1
    · rw [hkpairs] at h1
      exact absurd h1 (List.not_mem_nil x)
    · exact h1
  have hnotgen : ¬ isGen k := by
    rcases hk with rfl | rfl <;> simp [isGen]
  refine ⟨hs1, hs2, hs3, hs4, hs5, hs6, ?_, ?_, ?_, h.queueWF, h.recWF,
    h.recFinLB, h.recSorted, ?_⟩
  · intro f hf g hg hfg hgg
    rcases mem_insertEv.mp hf with h1 | h1
    · rw [h1] at hfg
      exact absurd hfg hnotgen
    · rcases mem_insertEv.mp hg with h2 | h2
      · rw [h2] at hgg
        exact absurd hgg hnotgen
      · exact h.genUnique f h1 g h2 hfg hgg
  · intro f hf hk2 x hx
    rcases mem_insertEv.mp hf with h1 | h1
    · rw [h1] at hk2
      have h3 : k = EvKind.genInit := hk2
      rcases hk with rfl | rfl <;> exact EvKind.noConfusion h3
    · exact h.genInitEmpty f h1 hk2 x (hsub x hx)
  · intro f hf n hk2 x hx
    rcases mem_insertEv.mp hf with h1 | h1
    · rw [h1] at hk2
      have h3 : k = EvKind.genTimeout n := hk2
      rcases hk with rfl | rfl <;> exact EvKind.noConfusion h3
    · exact h.genDom f h1 n hk2 x (hsub x hx)
  · intro x hx y hy
    exact h.pairsMono x (hsub x hx) y (hsub y hy)

/-- Scheduling the generator's next timeout preserves the invariant,
provided no other generator event remains and every represented customer
is dominated by the new timeout. -/
theorem inv_schedGen {p : Params} {s : SimState} {n d : Nat} (h : Inv p s)
    (hd : p.min_interarrival ≤ d)
    (hnogen : ∀ f ∈ s.heap, ¬ isGen f.kind)
    (hdom : ∀ x ∈ statePairs s, x.1 < n ∧ x.2 ≤ s.now + d) :
    Inv p (sched d 1 (.genTimeout n) s) := by
  have hwfnew : EvWF p s.now ⟨s.now + d, 1, s.nextEid, .genTimeout n⟩ := by
    simp [EvWF]
    omega
  obtain ⟨hs1, hs2, hs3, hs4, hs5, hs6⟩ := inv_sched_aux h hwfnew
  have hsub : ∀ x ∈ statePairs (sched d 1 (.genTimeout n) s),
      x ∈ statePairs s := by
    intro x hx
    rcases statePairs_sched_split hx with h1 | h1
    · simp [eventPairs] at h1
    · exact h1
  refine ⟨hs1, hs2, hs3, hs4, hs5, hs6, ?_, ?_, ?_, h.queueWF, h.recWF,
    h.recFinLB, h.recSorted, ?_⟩
  · intro f hf g hg hfg hgg
    rcases mem_insertEv.mp hf with h1 | h1
    · rcases mem_insertEv.mp hg with h2 | h2
      · rw [h1, h2]
      · exact absurd hgg (hnogen g h2)
    · exact absurd hfg (hnogen f h1)
  · intro f hf hk2 x hx
    rcases mem_insertEv.mp hf with h1 | h1
    · rw [h1] at hk2
      simp at hk2
    · exact absurd (show isGen f.kind by rw [hk2]; trivial) (hnogen f h1)
  · intro f hf m hk2 x hx
    rcases mem_insertEv.mp hf with h1 | h1
    · rw [h1] at hk2
      simp at hk2
      subst hk2
      have h5 := hdom x (hsub x hx)
      have h6 : f.time = s.now + d := by rw [h1]
      omega
    · exact absurd (show isGen f.kind by rw [hk2]; trivial) (hnogen f h1)
  · intro x hx y hy
    exact h.pairsMono x (hsub x hx) y (hsub y hy)

/-- Scheduling a customer's Initialize event (its arrival at the current
time) preserves the invariant, provided all represented customers have
smaller ids and earlier arrivals and no generator event remains. -/
theorem inv_schedInit {p : Params} {s : SimState} {n : Nat} (h : Inv p s)
    (hmini : p.min_interarrival ≤ s.now) (hsim : s.now < p.sim_time)
    (hdom : ∀ x ∈ statePairs s, x.1 < n ∧ x.2 ≤ s.now)
    (hnogen : ∀ f ∈ s.heap, ¬ isGen f.kind) :
    Inv p (sched 0 0 (.custInit n) s) := by
  have hwfnew : EvWF p s.now ⟨s.now + 0, 0, s.nextEid, .custInit n⟩ := by
    simp [EvWF]
    omega
  obtain ⟨hs1, hs2, hs3, hs4, hs5, hs6⟩ := inv_sched_aux h hwfnew
  have hsplit : ∀ x ∈ statePairs (sched 0 0 (.custInit n) s),
      x = (n, s.now) ∨ x ∈ statePairs s := by
    intro x hx
    rcases statePairs_sched_split hx with h1 | h1
    · simp [eventPairs] at h1
      exact Or.inl h1
    · exact Or.inr h1
  refine ⟨hs1, hs2, hs3, hs4, hs5, hs6, ?_, ?_, ?_, h.queueWF, h.recWF,
    h.recFinLB, h.recSorted, ?_⟩
  · intro f hf g hg hfg hgg
    rcases mem_insertEv.mp hf with h1 | h1
    · rw [h1] at hfg
      simp [isGen] at hfg
    · exact absurd hfg (hnogen f h1)
  · intro f hf hk2 x hx
    rcases mem_insertEv.mp hf with h1 | h1
    · rw [h1] at hk2
      simp at hk2
    · exact absurd (show isGen f.kind by rw [hk2]; trivial) (hnogen f h1)
  · intro f hf m hk2 x hx
    rcases mem_insertEv.mp hf with h1 | h1
    · rw [h1] at hk2
      simp at hk2
    · exact absurd (show isGen f.kind by rw [hk2]; trivial) (hnogen f h1)
  · intro x hx y hy hlt2
    rcases hsplit x hx with h1 | h1 <;> rcases hsplit y hy with h2 | h2
    · have e1 : x.1 = n := by rw [h1]
      have e2 : y.1 = n := by rw [h2]
      omega
    · have e1 : x.1 = n := by rw [h1]
      have h3 := hdom y h2
      omega
    · have e1 : y.1 = n := by rw [h2]
      have e2 : y.2 = s.now := by rw [h2]
      have h3 := hdom x h1
      omega
    · exact h.pairsMono x h1 y h2 hlt2

/-- Appending an arriving customer to the back of the FIFO request queue
preserves the invariant. -/
theorem inv_pushQueue {p : Params} {s : SimState} {i t : Nat} (h : Inv p s)
    (hmini : p.min_interarrival ≤ t) (hle : t ≤ s.now)
    (hlt : t < p.sim_time)
    (hcmp1 : ∀ y ∈ statePairs s, i < y.1 → t ≤ y.2)
    (hcmp2 : ∀ y ∈ statePairs s, y.1 < i → y.2 ≤ t)
    (hgd2 : ∀ f ∈ s.heap, ∀ n, f.kind = EvKind.genTimeout n →
      i < n ∧ t ≤ f.time)
    (hgi2 : ∀ f ∈ s.heap, f.kind = EvKind.genInit → False) :
    Inv p { s with putQueue := s.putQueue ++ [(i, t)] } := by
  have hsplit : ∀ x ∈ statePairs { s with putQueue := s.putQueue ++ [(i, t)] },
      x = (i, t) ∨ x ∈ statePairs s := by
    intro x hx
    rcases mem_statePairs.mp hx with hheapx | hqx | hrx
    · exact Or.inr (mem_statePairs.mpr (Or.inl hheapx))
    · rcases List.mem_append.mp hqx with h1 | h1
      · exact Or.inr (mem_statePairs.mpr (Or.inr (Or.inl h1)))
      · simp at h1
        exact Or.inl h1
    · exact Or.inr (mem_statePairs.mpr (Or.inr (Or.inr hrx)))
  refine ⟨h.sorted, h.hwf, h.timeLB, h.stopEx, h.eidLt, h.eidNodup,
    h.genUnique, ?_, ?_, ?_, h.recWF, h.recFinLB, h.recSorted, ?_⟩
  · intro f hf hk x hx
    exact hgi2 f hf hk
  · intro f hf n hk x hx
    rcases hsplit x hx with h1 | h1
    · have e1 : x.1 = i := by rw [h1]
      have e2 : x.2 = t := by rw [h1]
      have h3 := hgd2 f hf n hk
      omega
    · exact h.genDom f hf n hk x h1
  · intro x hx
    rcases List.mem_append.mp hx with h1 | h1
    · exact h.queueWF x h1
    · simp at h1
      have e1 : x.2 = t := by rw [h1]
      show p.min_interarrival ≤ x.2 ∧ x.2 ≤ s.now ∧ x.2 < p.sim_time
      omega
  · intro x hx y hy hlt2
    rcases hsplit x hx with h1 | h1 <;> rcases hsplit y hy with h2 | h2
    · have e1 : x.1 = i := by rw [h1]
      have e2 : y.1 = i := by rw [h2]
      omega
    · have e1 : x.1 = i := by rw [h1]
      have e2 : x.2 = t := by rw [h1]
      have h4 : t ≤ y.2 := hcmp1 y h2 (by omega)
      omega
    · have e1 : y.1 = i := by rw [h2]
      have e2 : y.2 = t := by rw [h2]
      have h4 : x.2 ≤ t := hcmp2 x h1 (by omega)
      omega
    · exact h.pairsMono x h1 y h2 hlt2

/-- Appending a finished customer's record (and releasing its slot)
preserves the invariant. -/
theorem inv_addRecord {p : Params} {s : SimState} {r : Record}
    (h : Inv p s) (hr : RecordWF p r) (hfin : r.finish_time = s.now)
    (hcmp1 : ∀ y ∈ statePairs s, r.customer_id < y.1 →
      r.arrival_time ≤ y.2)
    (hcmp2 : ∀ y ∈ statePairs s, y.1 < r.customer_id →
      y.2 ≤ r.arrival_time)
    (hgd2 : ∀ f ∈ s.heap, ∀ n, f.kind = EvKind.genTimeout n →
      r.customer_id < n ∧ r.arrival_time ≤ f.time)
    (hgi2 : ∀ f ∈ s.heap, f.kind = EvKind.genInit → False) :
    Inv p { s with records := s.records ++ [r], users := s.users - 1 } := by
  have hsplit : ∀ x ∈ statePairs
      { s with records := s.records ++ [r], users := s.users - 1 },
      x = recPair r ∨ x ∈ statePairs s := by
    intro x hx
    rcases mem_statePairs.mp hx with hheapx | hqx | ⟨r2, hr2, hrx⟩
    · exact Or.inr (mem_statePairs.mpr (Or.inl hheapx))
    · exact Or.inr (mem_statePairs.mpr (Or.inr (Or.inl hqx)))
    · rcases List.mem_append.mp hr2 with h1 | h1
      · exact Or.inr (mem_statePairs.mpr (Or.inr (Or.inr ⟨r2, h1, hrx⟩)))
      · simp at h1
        exact Or.inl (by rw [← hrx, h1])
  refine ⟨h.sorted, h.hwf, h.timeLB, h.stopEx, h.eidLt, h.eidNodup,
    h.genUnique, ?_, ?_, h.queueWF, ?_, ?_, ?_, ?_⟩
  · intro f hf hk x hx
    exact hgi2 f hf hk
  · intro f hf n hk x hx
    rcases hsplit x hx with h1 | h1
    · have e1 : x.1 = r.customer_id := by simp [h1, recPair]
      have e2 : x.2 = r.arrival_time := by simp [h1, recPair]
      have h3 := hgd2 f hf n hk
      omega
    · exact h.genDom f hf n hk x h1
  · intro r2 hr2
    rcases List.mem_append.mp hr2 with h1 | h1
    · exact h.recWF r2 h1
    · simp at h1
      rw [h1]
      exact hr
  · intro r2 hr2
    rcases List.mem_append.mp hr2 with h1 | h1
    · exact h.recFinLB r2 h1
    · simp at h1
      rw [h1]
      exact le_of_eq hfin
  · refine List.pairwise_append.mpr ⟨h.recSorted, ?_, ?_⟩
    · simp
    · intro a ha b hb
      simp at hb
      rw [hb]
      have h3 := h.recFinLB a ha
      omega
  · intro x hx y hy hlt2
    rcases hsplit x hx with h1 | h1 <;> rcases hsplit y hy with h2 | h2
    · have e1 : x.1 = r.customer_id := by simp [h1, recPair]
      have e2 : y.1 = r.customer_id := by simp [h2, recPair]
      omega
    · have e1 : x.1 = r.customer_id := by simp [h1, recPair]
      have e2 : x.2 = r.arrival_time := by simp [h1, recPair]
      have h4 : r.arrival_time ≤ y.2 := hcmp1 y h2 (by omega)
      omega
    · have e1 : y.1 = r.customer_id := by simp [h2, recPair]
      have e2 : y.2 = r.arrival_time := by simp [h2, recPair]
      have h4 : x.2 ≤ r.arrival_time := hcmp2 x h1 (by omega)
      omega
    · exact h.pairsMono x h1 y h2 hlt2

/-- Scheduling a granted customer's service-completion timeout preserves
the invariant. -/
theorem inv_schedSvc {p : Params} {s : SimState} {i a st d : Nat}
    (h : Inv p s) (hst : st = s.now)
    (hmini : p.min_interarrival ≤ a) (hale : a ≤ st)
    (hasim : a < p.sim_time) (hmins : p.min_service ≤ d)
    (hcmp1 : ∀ y ∈ statePairs s, i < y.1 → a ≤ y.2)
    (hcmp2 : ∀ y ∈ statePairs s, y.1 < i → y.2 ≤ a)
    (hgd2 : ∀ f ∈ s.heap, ∀ n, f.kind = EvKind.genTimeout n →
      i < n ∧ a ≤ f.time)
    (hgi2 : ∀ f ∈ s.heap, f.kind = EvKind.genInit → False) :
    Inv p (sched d 1 (.svcDone i a st d) s) := by
  have hwfnew : EvWF p s.now ⟨s.now + d, 1, s.nextEid, .svcDone i a st d⟩ := by
    simp [EvWF]
    omega
  obtain ⟨hs1, hs2, hs3, hs4, hs5, hs6⟩ := inv_sched_aux h hwfnew
  have hsplit : ∀ x ∈ statePairs (sched d 1 (.svcDone i a st d) s),
      x = (i, a) ∨ x ∈ statePairs s := by
    intro x hx
    rcases statePairs_sched_split hx with h1 | h1
    · simp [eventPairs] at h1
      exact Or.inl (by rw [h1])
    · exact Or.inr h1
  refine ⟨hs1, hs2, hs3, hs4, hs5, hs6, ?_, ?_, ?_, h.queueWF, h.recWF,
    h.recFinLB, h.recSorted, ?_⟩
  · intro f hf g hg hfg hgg
    rcases mem_insertEv.mp hf with h1 | h1
    · rw [h1] at hfg
      simp [isGen] at hfg
    · rcases mem_insertEv.mp hg with h2 | h2
      · rw [h2] at hgg
        simp [isGen] at hgg
      · exact h.genUnique f h1 g h2 hfg hgg
  · intro f hf hk2 x hx
    rcases mem_insertEv.mp hf with h1 | h1
    · rw [h1] at hk2
      simp at hk2
    · exact hgi2 f h1 hk2
  · intro f hf n hk2 x hx
    rcases mem_insertEv.mp hf with h1 | h1
    · rw [h1] at hk2
      simp at hk2
    · rcases hsplit x hx with h2 | h2
      · have e1 : x.1 = i := by rw [h2]
        have e2 : x.2 = a := by rw [h2]
        have h3 := hgd2 f h1 n hk2
        omega
      · exact h.genDom f h1 n hk2 x h2
  · intro x hx y hy hlt2
    rcases hsplit x hx with h1 | h1 <;> rcases hsplit y hy with h2 | h2
    · have e1 : x.1 = i := by rw [h1]
      have e2 : y.1 = i := by rw [h2]
      omega
    · have e1 : x.1 = i := by rw [h1]
      have e2 : x.2 = a := by rw [h1]
      have h4 : a ≤ y.2 := hcmp1 y h2 (by omega)
      omega
    · have e1 : y.1 = i := by rw [h2]
      have e2 : y.2 = a := by rw [h2]
      have h4 : x.2 ≤ a := hcmp2 x h1 (by omega)
      omega
    · exact h.pairsMono x h1 y h2 hlt2

/-- SimPy's `_trigger_put` preserves the invariant. -/
theorem inv_triggerPut {p : Params} {s : SimState} (h : Inv p s) :
    Inv p (triggerPut p s) := by
  rcases hq : s.putQueue with _ | ⟨⟨i, a⟩, tl⟩
  · simpa [triggerPut, hq] using h
  · by_cases hus : s.users < p.num_cashiers
    · have hqh := h.queueWF (i, a) (by rw [hq]; exact List.mem_cons_self _ _)
      simp at hqh
      have hheadmem : (i, a) ∈ statePairs s :=
        mem_statePairs.mpr (Or.inr (Or.inl (by
          rw [hq]; exact List.mem_cons_self _ _)))
      have hsub2 : ∀ x ∈ statePairs { s with users := s.users + 1, putQueue := tl },
          x ∈ statePairs s := by
        intro x hx
        rcases mem_statePairs.mp hx with hheapx | hqx | hrx
        · exact mem_statePairs.mpr (Or.inl hheapx)
        · exact mem_statePairs.mpr (Or.inr (Or.inl (by
            rw [hq]; exact List.mem_cons_of_mem _ hqx)))
        · exact mem_statePairs.mpr (Or.inr (Or.inr hrx))
      have h2 : Inv p { s with users := s.users + 1, putQueue := tl } := by
        refine ⟨h.sorted, h.hwf, h.timeLB, h.stopEx, h.eidLt, h.eidNodup,
          h.genUnique, ?_, ?_, ?_, h.recWF, h.recFinLB, h.recSorted, ?_⟩
        · intro f hf hk x hx
          exact h.genInitEmpty f hf hk x (hsub2 x hx)
        · intro f hf n hk x hx
          exact h.genDom f hf n hk x (hsub2 x hx)
        · intro x hx
          exact h.queueWF x (by rw [hq]; exact List.mem_cons_of_mem _ hx)
        · intro x hx y hy
          exact h.pairsMono x (hsub2 x hx) y (hsub2 y hy)
      have hwfnew : EvWF p s.now
          ⟨s.now + 0, 1, s.nextEid, EvKind.reqGrant i a⟩ := by
        simp [EvWF]
        omega
      obtain ⟨hs1, hs2, hs3, hs4, hs5, hs6⟩ :=
        @inv_sched_aux p { s with users := s.users + 1, putQueue := tl }
          0 1 (EvKind.reqGrant i a) h2 hwfnew
      have hsplit : ∀ x ∈ statePairs
          (sched 0 1 (.reqGrant i a) { s with users := s.users + 1, putQueue := tl }),
          x = (i, a) ∨ x ∈ statePairs s := by
        intro x hx
        rcases statePairs_sched_split hx with h1 | h1
        · simp [eventPairs] at h1
          exact Or.inl (by rw [h1])
        · exact Or.inr (hsub2 x h1)
      have hgoal : Inv p
          (sched 0 1 (.reqGrant i a) { s with users := s.users + 1, putQueue := tl }) := by
        refine ⟨hs1, hs2, hs3, hs4, hs5, hs6, ?_, ?_, ?_, h2.queueWF,
          h.recWF, h.recFinLB, h.recSorted, ?_⟩
        · intro f hf g hg hfg hgg
          rcases mem_insertEv.mp hf with h1 | h1
          · rw [h1] at hfg
            simp [isGen] at hfg
          · rcases mem_insertEv.mp hg with h3 | h3
            · rw [h3] at hgg
              simp [isGen] at hgg
            · exact h.genUnique f h1 g h3 hfg hgg
        · intro f hf hk2 x hx
          rcases mem_insertEv.mp hf with h1 | h1
          · rw [h1] at hk2
            simp at hk2
          · exact h.genInitEmpty f h1 hk2 (i, a) hheadmem
        · intro f hf n hk2 x hx
          rcases mem_insertEv.mp hf with h1 | h1
          · rw [h1] at hk2
            simp at hk2
          · rcases hsplit x hx with h3 | h3
            · have e1 : x.1 = i := by rw [h3]
              have e2 : x.2 = a := by rw [h3]
              have h4 := h.genDom f h1 n hk2 (i, a) hheadmem
              simp at h4
              omega
            · exact h.genDom f h1 n hk2 x h3
        · intro x hx y hy hlt2
          rcases hsplit x hx with h1 | h1 <;> rcases hsplit y hy with h3 | h3
          · have e1 : x.1 = i := by rw [h1]
            have e2 : y.1 = i := by rw [h3]
            omega
          · have e1 : x.1 = i := by rw [h1]
            have e2 : x.2 = a := by rw [h1]
            have h4 : (i, a).2 ≤ y.2 := h.pairsMono (i, a) hheadmem y h3 (by
              simp
              omega)
            simp at h4
            omega
          · have e1 : y.1 = i := by rw [h3]
            have e2 : y.2 = a := by rw [h3]
            have h4 : x.2 ≤ (i, a).2 := h.pairsMono x h1 (i, a) hheadmem (by
              simp
              omega)
            simp at h4
            omega
          · exact h.pairsMono x h1 y h3 hlt2
      simpa [triggerPut, hq, hus] using hgoal
    · simpa [triggerPut, hq, hus] using h

/-! ## Preservation of the invariant by one step of the event loop -/

theorem statePairs_sub_of_heap {s1 s2 : SimState}
    (hh : ∀ f ∈ s1.heap, f ∈ s2.heap)
    (hq : ∀ x ∈ s1.putQueue, x ∈ s2.putQueue)
    (hr : ∀ r ∈ s1.records, r ∈ s2.records) :
    ∀ x ∈ statePairs s1, x ∈ statePairs s2 := by
  intro x hx
  rcases mem_statePairs.mp hx with ⟨f, hf, hxf⟩ | hqx | ⟨r, hrr, hrx⟩
  · exact mem_statePairs.mpr (Or.inl ⟨f, hh f hf, hxf⟩)
  · exact mem_statePairs.mpr (Or.inr (Or.inl (hq x hqx)))
  · exact mem_statePairs.mpr (Or.inr (Or.inr ⟨r, hr r hrr, hrx⟩))

/-- The popped head of the heap was the unique generator event. -/
theorem popped_gen_unique {p : Params} {s : SimState} {e : Event}
    {rest : List Event} (h : Inv p s) (hheap : s.heap = e :: rest)
    (hg : isGen e.kind) : ∀ f ∈ rest, ¬ isGen f.kind := by
  intro f hf hgf
  have hmemE : e ∈ s.heap := by rw [hheap]; exact List.mem_cons_self _ _
  have hfeq := h.genUnique f
    (by rw [hheap]; exact List.mem_cons_of_mem _ hf) e hmemE hgf hg
  have hnd := h.eidNodup
  rw [hheap] at hnd
  subst hfeq
  exact (List.pairwise_cons.mp hnd).1 f hf rfl

theorem inv_step {p : Params} {stream : Nat → Nat} {s : SimState}
    (h : Inv p s) : Inv p (step p stream s) := by
  obtain ⟨now, heap, nid, us, q, recs, pos, hl⟩ := s
  cases hl with
  | true => exact h
  | false =>
    cases heap with
    | nil =>
      refine ⟨h.sorted, h.hwf, h.timeLB, ?_, h.eidLt, h.eidNodup,
        h.genUnique, h.genInitEmpty, h.genDom, h.queueWF, h.recWF,
        h.recFinLB, h.recSorted, h.pairsMono⟩
      intro h2
      exact Bool.noConfusion (show true = false from h2)
    | cons e rest =>
      obtain ⟨t, pr, eid0, k⟩ := e
      have hhl : ((⟨now, ⟨t, pr, eid0, k⟩ :: rest, nid, us, q, recs, pos,
          false⟩ : SimState)).halted = false := rfl
      have hheap : ((⟨now, ⟨t, pr, eid0, k⟩ :: rest, nid, us, q, recs, pos,
          false⟩ : SimState)).heap = ⟨t, pr, eid0, k⟩ :: rest := rfl
      have hmemE : (⟨t, pr, eid0, k⟩ : Event) ∈ ⟨t, pr, eid0, k⟩ :: rest :=
        List.mem_cons_self _ _
      have hmemR : ∀ f ∈ rest, f ∈ (⟨t, pr, eid0, k⟩ : Event) :: rest :=
        fun f hf => List.mem_cons_of_mem _ hf
      have hsub : ∀ x ∈ statePairs
          ((⟨t, rest, nid, us, q, recs, pos, false⟩ : SimState)),
          x ∈ statePairs
          ((⟨now, ⟨t, pr, eid0, k⟩ :: rest, nid, us, q, recs, pos,
            false⟩ : SimState)) :=
        statePairs_sub_of_heap hmemR (fun x hx => hx) (fun r hr => hr)
      cases k with
      | stop =>
        exact inv_halt h hheap
      | genInit =>
        have h1 := inv_pop h hheap (by simp)
        have hgieE := h.genInitEmpty _ hmemE rfl
        have hnogen : ∀ f ∈ rest, ¬ isGen f.kind :=
          popped_gen_unique h hheap (by trivial)
        exact inv_schedGen (inv_pos h1) (randint_ge _ _ _)
          (fun f hf hg => hnogen f hf hg)
          (fun x hx => absurd (hsub x hx) (fun h2 => hgieE x h2))
      | genTimeout n =>
        have h1 := inv_pop h hheap (by simp)
        have hwfE := h.hwf _ hmemE
        simp only [EvWF] at hwfE
        have hsim : t < p.sim_time := popped_lt_stop h hhl hheap hwfE.2
        have hdomE := h.genDom _ hmemE n rfl
        have hnogen : ∀ f ∈ rest, ¬ isGen f.kind :=
          popped_gen_unique h hheap (by trivial)
        have h2 : Inv p (sched 0 0 (.custInit n)
            ((⟨t, rest, nid, us, q, recs, pos, false⟩ : SimState))) :=
          inv_schedInit h1 hwfE.1 hsim
            (fun x hx => hdomE x (hsub x hx)) hnogen
        have hnogen2 : ∀ f ∈ (sched 0 0 (.custInit n)
            ((⟨t, rest, nid, us, q, recs, pos, false⟩ : SimState))).heap,
            ¬ isGen f.kind := by
          intro f hf hgf
          rcases mem_insertEv.mp hf with h3 | h3
          · rw [h3] at hgf
            simp [isGen] at hgf
          · exact hnogen f h3 hgf
        refine inv_schedGen (inv_pos h2) (randint_ge _ _ _) hnogen2 ?_
        intro x hx
        rcases statePairs_sched_split hx with h3 | h3
        · simp [eventPairs] at h3
          have e1 : x.1 = n := by rw [h3]
          have e2 : x.2 = t := by rw [h3]
          exact ⟨by omega, le_trans (le_of_eq e2) (Nat.le_add_right _ _)⟩
        · have h4 := hdomE x (hsub x h3)
          exact ⟨by omega, le_trans h4.2 (Nat.le_add_right _ _)⟩
      | custInit i =>
        have h1 := inv_pop h hheap (by simp)
        have hwfE := h.hwf _ hmemE
        simp only [EvWF] at hwfE
        have hpair : (i, t) ∈ statePairs
            ((⟨now, ⟨t, pr, eid0, EvKind.custInit i⟩ :: rest, nid, us, q,
              recs, pos, false⟩ : SimState)) :=
          mem_statePairs.mpr (Or.inl ⟨_, hmemE, by simp [eventPairs]⟩)
        have h2 := inv_pushQueue h1 hwfE.1 (Nat.le_refl t) hwfE.2.1
          (fun y hy hlt => h.pairsMono (i, t) hpair y (hsub y hy) hlt)
          (fun y hy hlt => h.pairsMono y (hsub y hy) (i, t) hpair hlt)
          (fun f hf n hkf => h.genDom f (hmemR f hf) n hkf (i, t) hpair)
          (fun f hf hkf =>
            h.genInitEmpty f (hmemR f hf) hkf (i, t) hpair)
        exact inv_triggerPut h2
      | reqGrant i a =>
        have h1 := inv_pop h hheap (by simp)
        have hwfE := h.hwf _ hmemE
        simp only [EvWF] at hwfE
        have hpair : (i, a) ∈ statePairs
            ((⟨now, ⟨t, pr, eid0, EvKind.reqGrant i a⟩ :: rest, nid, us, q,
              recs, pos, false⟩ : SimState)) :=
          mem_statePairs.mpr (Or.inl ⟨_, hmemE, by simp [eventPairs]⟩)
        exact inv_schedSvc (inv_pos h1) rfl hwfE.1 hwfE.2.1 hwfE.2.2.1
          (randint_ge _ _ _)
          (fun y hy hlt => h.pairsMono (i, a) hpair y (hsub y hy) hlt)
          (fun y hy hlt => h.pairsMono y (hsub y hy) (i, a) hpair hlt)
          (fun f hf n hkf => h.genDom f (hmemR f hf) n hkf (i, a) hpair)
          (fun f hf hkf => h.genInitEmpty f (hmemR f hf) hkf (i, a) hpair)
      | svcDone i a st d =>
        have h1 := inv_pop h hheap (by simp)
        have hwfE := h.hwf _ hmemE
        simp only [EvWF] at hwfE
        obtain ⟨hmini, hast, hasim, hstnow, hsum, hmins, hprio⟩ := hwfE
        have hfinlt : t < p.sim_time :=
          popped_lt_stop h hhl hheap hprio
        have hpair : (i, a) ∈ statePairs
            ((⟨now, ⟨t, pr, eid0, EvKind.svcDone i a st d⟩ :: rest, nid, us,
              q, recs, pos, false⟩ : SimState)) :=
          mem_statePairs.mpr (Or.inl ⟨_, hmemE, by simp [eventPairs]⟩)
        have hrwf : RecordWF p
            ⟨i, a, st, t, (st : Int) - (a : Int), d,
              (t : Int) - (a : Int)⟩ :=
          ⟨rfl, rfl, hsum.symm, hast, hmins, hfinlt, hasim, hmini⟩
        have h2 := inv_addRecord h1 hrwf rfl
          (fun y hy hlt => h.pairsMono (i, a) hpair y (hsub y hy) hlt)
          (fun y hy hlt => h.pairsMono y (hsub y hy) (i, a) hpair hlt)
          (fun f hf n hkf => h.genDom f (hmemR f hf) n hkf (i, a) hpair)
          (fun f hf hkf => h.genInitEmpty f (hmemR f hf) hkf (i, a) hpair)
        exact inv_sched_quiet (inv_sched_quiet h2 (Or.inl rfl)) (Or.inr rfl)
      | releaseEv =>
        exact inv_triggerPut (inv_pop h hheap (by simp))
      | procEnd =>
        exact inv_pop h hheap (by simp)

theorem inv_simLoop {p : Params} {stream : Nat → Nat} (fuel : Nat)
    {s : SimState} (h : Inv p s) :
    Inv p (simLoop p stream fuel s) := by
  induction fuel generalizing s with
  | zero => simpa [simLoop] using h
  | succ n ih =>
    simp only [simLoop]
    exact ih (inv_step h)

/-- The invariant holds of the final state of every engine invocation. -/
theorem inv_finalState (nc st mini maxi mins maxs seed : Nat) :
    Inv ⟨nc, st, mini, maxi, mins, maxs⟩
      (finalState nc st mini maxi mins maxs seed) :=
  inv_simLoop _ (inv_init ⟨nc, st, mini, maxi, mins, maxs⟩)

/-! ## The claims -/

/-- Does the event hold a running (granted, not yet finished) service? -/
def isSvcDone (e : Event) : Bool :=
  match e.kind with
  | .svcDone _ _ _ _ => true
  | _ => false

/-- C1 (counterexample): with one cashier, `sim_time = 3`, interarrival
fixed at 1 and service fixed at 5, customer 1 is granted a slot at time 1
and its service would finish at time 6 > 3; `env.run(until=3)` stops the
loop at the horizon, so the run returns NO record at all — the pending
`svcDone` event for customer 1 (arrival 1, start 1, duration 5, scheduled
at time 6) is still in the heap when the loop halts.  This refutes the
claim that a service already granted a slot at the horizon runs to
completion and emits a Customer Record. -/
theorem horizon_runs_to_completion_false :
    (run_simulation 1 3 1 1 5 5 0 ⟨mtStream 0, 0⟩).1 = [] ∧
    (⟨6, 1, 6, EvKind.svcDone 1 1 1 5⟩ : Event) ∈
      (finalState 1 3 1 1 5 5 0).heap ∧
    (finalState 1 3 1 1 5 5 0).halted = true := by
  decide

/-- C1 (amended): when the clock reaches `sim_time` the event loop stops
entirely: services still in progress at the horizon are cut off and emit
no Customer Record, and every emitted record has
`finish_time < sim_time`. -/
theorem horizon_stops_event_loop
    (nc st mini maxi mins maxs seed : Nat) (g0 : PyRandState) :
    ∀ r ∈ (run_simulation nc st mini maxi mins maxs seed g0).1,
      r.finish_time < st := by
  intro r hr
  have hw := (inv_finalState nc st mini maxi mins maxs seed).recWF r hr
  have h6 : r.finish_time < st := hw.2.2.2.2.2.1
  exact h6

theorem horizon_stops_event_loop_witness :
    (⟨2, 4, 5, 8, 1, 3, 4⟩ : Record).finish_time < 10 :=
  horizon_stops_event_loop 1 10 2 2 3 3 0 ⟨mtStream 0, 0⟩
    ⟨2, 4, 5, 8, 1, 3, 4⟩ (by decide)

/-- C2: `run_simulation` resets the global random module to `random_seed`
before any draw (app.py line 21), so the sequence of Customer Records it
returns is independent of the ambient random-module state: two invocations
with the same seven parameters produce identical record sequences. -/
theorem run_simulation_deterministic
    (nc st mini maxi mins maxs seed : Nat) (g0 g1 : PyRandState) :
    (run_simulation nc st mini maxi mins maxs seed g0).1 =
      (run_simulation nc st mini maxi mins maxs seed g1).1 := rfl

/-- C3: for every emitted Customer Record,
`system_time = queue_time + service_duration` exactly, with
`finish_time = start_service + service_duration` and
`queue_time = start_service - arrival_time`. -/
theorem records_additive
    (nc st mini maxi mins maxs seed : Nat) (g0 : PyRandState) :
    ∀ r ∈ (run_simulation nc st mini maxi mins maxs seed g0).1,
      r.system_time = r.queue_time + (r.service_duration : Int) ∧
      r.finish_time = r.start_service + r.service_duration ∧
      r.queue_time = (r.start_service : Int) - (r.arrival_time : Int) := by
  intro r hr
  obtain ⟨h1, h2, h3, h4, h5, h6, h7, h8⟩ :=
    (inv_finalState nc st mini maxi mins maxs seed).recWF r hr
  refine ⟨?_, h3, h1⟩
  rw [h2, h1, h3]
  push_cast
  ring

theorem records_additive_witness :
    (⟨2, 4, 5, 8, 1, 3, 4⟩ : Record).system_time =
      (⟨2, 4, 5, 8, 1, 3, 4⟩ : Record).queue_time +
        ((⟨2, 4, 5, 8, 1, 3, 4⟩ : Record).service_duration : Int) ∧
    (⟨2, 4, 5, 8, 1, 3, 4⟩ : Record).finish_time =
      (⟨2, 4, 5, 8, 1, 3, 4⟩ : Record).start_service +
        (⟨2, 4, 5, 8, 1, 3, 4⟩ : Record).service_duration ∧
    (⟨2, 4, 5, 8, 1, 3, 4⟩ : Record).queue_time =
      ((⟨2, 4, 5, 8, 1, 3, 4⟩ : Record).start_service : Int) -
        ((⟨2, 4, 5, 8, 1, 3, 4⟩ : Record).arrival_time : Int) :=
  records_additive 1 10 2 2 3 3 0 ⟨mtStream 0, 0⟩
    ⟨2, 4, 5, 8, 1, 3, 4⟩ (by decide)

/-- C4: when `min_service ≥ 1` (which the app's input form guarantees),
every emitted Customer Record has `queue_time ≥ 0` and
`service_duration ≥ 1`. -/
theorem records_nonneg
    (nc st mini maxi mins maxs seed : Nat) (g0 : PyRandState)
    (hmins : 1 ≤ mins) :
    ∀ r ∈ (run_simulation nc st mini maxi mins maxs seed g0).1,
      0 ≤ r.queue_time ∧ 1 ≤ r.service_duration := by
  intro r hr
  obtain ⟨h1, h2, h3, h4, h5, h6, h7, h8⟩ :=
    (inv_finalState nc st mini maxi mins maxs seed).recWF r hr
  have h4b : r.arrival_time ≤ r.start_service := h4
  have h5b : mins ≤ r.service_duration := h5
  constructor
  · rw [h1]
    omega
  · omega

theorem records_nonneg_witness :
    0 ≤ (⟨2, 4, 5, 8, 1, 3, 4⟩ : Record).queue_time ∧
      1 ≤ (⟨2, 4, 5, 8, 1, 3, 4⟩ : Record).service_duration :=
  records_nonneg 1 10 2 2 3 3 0 ⟨mtStream 0, 0⟩ (by decide)
    ⟨2, 4, 5, 8, 1, 3, 4⟩ (by decide)

/-- C5: no arrival is ever generated past the horizon: in every reachable
loop state (any fuel, any raw random stream) every pending customer
Initialize event and every queued customer has time at most `sim_time`
(in fact strictly below it), and every emitted record has
`arrival_time ≤ sim_time`. -/
theorem no_arrival_past_horizon
    (nc st mini maxi mins maxs seed fuel : Nat) (stream : Nat → Nat)
    (g0 : PyRandState) :
    (∀ e ∈ (simLoop ⟨nc, st, mini, maxi, mins, maxs⟩ stream fuel
        (initState st)).heap,
      ∀ i, e.kind = EvKind.custInit i → e.time ≤ st) ∧
    (∀ x ∈ (simLoop ⟨nc, st, mini, maxi, mins, maxs⟩ stream fuel
        (initState st)).putQueue, x.2 ≤ st) ∧
    (∀ r ∈ (run_simulation nc st mini maxi mins maxs seed g0).1,
      r.arrival_time ≤ st) := by
  have hinv : Inv ⟨nc, st, mini, maxi, mins, maxs⟩
      (simLoop ⟨nc, st, mini, maxi, mins, maxs⟩ stream fuel
        (initState st)) :=
    inv_simLoop fuel (inv_init _)
  refine ⟨?_, ?_, ?_⟩
  · intro e he i hki
    have hw := hinv.hwf e he
    simp only [EvWF, hki] at hw
    have h2 : e.time < st := hw.2.1
    omega
  · intro x hx
    have h2 := hinv.queueWF x hx
    have h3 : x.2 < st := h2.2.2
    omega
  · intro r hr
    have hw := (inv_finalState nc st mini maxi mins maxs seed).recWF r hr
    have h3 : r.arrival_time < st := hw.2.2.2.2.2.2.1
    omega

theorem no_arrival_past_horizon_witness :
    (⟨2, 4, 5, 8, 1, 3, 4⟩ : Record).arrival_time ≤ 10 :=
  (no_arrival_past_horizon 1 10 2 2 3 3 0 88 (mtStream 0)
    ⟨mtStream 0, 0⟩).2.2 ⟨2, 4, 5, 8, 1, 3, 4⟩ (by decide)

/-- C6: arrival times are non-decreasing in customer index: any two
records of one run with `customer_id` in increasing order have
`arrival_time` in non-decreasing order. -/
theorem arrival_nondecreasing_in_id
    (nc st mini maxi mins maxs seed : Nat) (g0 : PyRandState) :
    ∀ r1 ∈ (run_simulation nc st mini maxi mins maxs seed g0).1,
      ∀ r2 ∈ (run_simulation nc st mini maxi mins maxs seed g0).1,
        r1.customer_id < r2.customer_id →
          r1.arrival_time ≤ r2.arrival_time := by
  intro r1 h1 r2 h2 hlt
  have hinv := inv_finalState nc st mini maxi mins maxs seed
  have hm1 : recPair r1 ∈ statePairs (finalState nc st mini maxi mins
      maxs seed) :=
    mem_statePairs.mpr (Or.inr (Or.inr ⟨r1, h1, rfl⟩))
  have hm2 : recPair r2 ∈ statePairs (finalState nc st mini maxi mins
      maxs seed) :=
    mem_statePairs.mpr (Or.inr (Or.inr ⟨r2, h2, rfl⟩))
  exact hinv.pairsMono (recPair r1) hm1 (recPair r2) hm2 hlt

theorem arrival_nondecreasing_in_id_witness :
    (⟨1, 2, 2, 5, 0, 3, 3⟩ : Record).arrival_time ≤
      (⟨2, 4, 5, 8, 1, 3, 4⟩ : Record).arrival_time :=
  arrival_nondecreasing_in_id 1 10 2 2 3 3 0 ⟨mtStream 0, 0⟩
    ⟨1, 2, 2, 5, 0, 3, 3⟩ (by decide) ⟨2, 4, 5, 8, 1, 3, 4⟩ (by decide)
    (by decide)

/-- C7: the record sequence returned by `run_simulation` is in completion
order: `finish_time` is non-decreasing along the returned list. -/
theorem records_in_completion_order
    (nc st mini maxi mins maxs seed : Nat) (g0 : PyRandState) :
    ((run_simulation nc st mini maxi mins maxs seed g0).1).Pairwise
      (fun r1 r2 => r1.finish_time ≤ r2.finish_time) :=
  (inv_finalState nc st mini maxi mins maxs seed).recSorted

/-- C9: a run may complete zero customers — with `sim_time = 1` and
interarrival at least 5 no customer even arrives before the horizon, and
the engine returns the empty record list without failing; `main` detects
the empty DataFrame (app.py lines 146-148) and turns it into the
user-visible "try different parameters" error outcome instead of raising,
while non-empty results proceed to the report. -/
theorem empty_run_nonfatal :
    (run_simulation 1 1 5 5 1 1 7 ⟨mtStream 7, 0⟩).1 = [] ∧
    main_empty_check (run_simulation 1 1 5 5 1 1 7 ⟨mtStream 7, 0⟩).1
      (run_simulation 1 1 5 5 1 1 7 ⟨mtStream 7, 0⟩).1 =
        MainOutcome.emptyDataError ∧
    main_empty_check [⟨1, 2, 2, 5, 0, 3, 3⟩] [⟨1, 2, 2, 5, 0, 3, 3⟩] =
      MainOutcome.report := by
  decide

/-- C10: the generator draws and elapses the first interarrival gap before
spawning the first customer (app.py lines 53-57), so every record's
`arrival_time` is at least `min_interarrival`; in particular no customer
arrives at simulated time 0 whenever `min_interarrival ≥ 1`. -/
theorem arrival_at_least_min_interarrival
    (nc st mini maxi mins maxs seed : Nat) (g0 : PyRandState) :
    ∀ r ∈ (run_simulation nc st mini maxi mins maxs seed g0).1,
      mini ≤ r.arrival_time ∧ (1 ≤ mini → 0 < r.arrival_time) := by
  intro r hr
  have hw := (inv_finalState nc st mini maxi mins maxs seed).recWF r hr
  have h8 : mini ≤ r.arrival_time := hw.2.2.2.2.2.2.2
  exact ⟨h8, fun h1 => by omega⟩

theorem arrival_at_least_min_interarrival_witness :
    2 ≤ (⟨1, 2, 2, 5, 0, 3, 3⟩ : Record).arrival_time ∧
      (1 ≤ 2 → 0 < (⟨1, 2, 2, 5, 0, 3, 3⟩ : Record).arrival_time) :=
  arrival_at_least_min_interarrival 1 10 2 2 3 3 0 ⟨mtStream 0, 0⟩
    ⟨1, 2, 2, 5, 0, 3, 3⟩ (by decide)

/-! ## The FIFO invariant

A second inductive invariant captures the FIFO discipline of
`simpy.Resource`: the request queue is sorted by customer id, granted
customers all precede every queued customer, and service start times are
monotone in customer id.  Its preservation needs `min_interarrival ≥ 1`
(as the app's input form guarantees, app.py line 93): with positive
interarrival gaps at most one customer Initialize event is ever pending,
so arrivals join the queue in id order. -/

theorem mem_corePairs {s : SimState} {x : Nat × Nat} :
    x ∈ corePairs s ↔
      (∃ e ∈ s.heap, x ∈ coreEventPairs e) ∨ x ∈ s.putQueue ∨
        ∃ r ∈ s.records, recPair r = x := by
  simp [corePairs, mem_collect, List.mem_append, or_assoc]

theorem mem_startPairs {s : SimState} {x : Nat × Nat} :
    x ∈ startPairs s ↔
      (∃ e ∈ s.heap, x ∈ startEventPairs e) ∨
        ∃ r ∈ s.records, recStartPair r = x := by
  simp [startPairs, mem_collect, List.mem_append]

theorem corePairs_sub_statePairs {s : SimState} {x : Nat × Nat}
    (hx : x ∈ corePairs s) : x ∈ statePairs s := by
  rcases mem_corePairs.mp hx with ⟨e, he, hxe⟩ | hq | hr
  · refine mem_statePairs.mpr (Or.inl ⟨e, he, ?_⟩)
    obtain ⟨t, pr, eid0, k⟩ := e
    cases k <;> simpa [coreEventPairs, eventPairs] using hxe
  · exact mem_statePairs.mpr (Or.inr (Or.inl hq))
  · exact mem_statePairs.mpr (Or.inr (Or.inr hr))

/-- Every granted customer is also represented in `corePairs` (with its
arrival time) under the same id. -/
theorem startPairs_id {s : SimState} {x : Nat × Nat}
    (hx : x ∈ startPairs s) : ∃ a, (x.1, a) ∈ corePairs s := by
  rcases mem_startPairs.mp hx with ⟨e, he, hxe⟩ | ⟨r, hr, hrx⟩
  · obtain ⟨t, pr, eid0, k⟩ := e
    cases k with
    | reqGrant i a =>
      simp [startEventPairs] at hxe
      refine ⟨a, mem_corePairs.mpr (Or.inl ⟨_, he, ?_⟩)⟩
      simp [coreEventPairs]
      rw [hxe]
    | svcDone i a st d =>
      simp [startEventPairs] at hxe
      refine ⟨a, mem_corePairs.mpr (Or.inl ⟨_, he, ?_⟩)⟩
      simp [coreEventPairs]
      rw [hxe]
    | stop => simp [startEventPairs] at hxe
    | genInit => simp [startEventPairs] at hxe
    | genTimeout n => simp [startEventPairs] at hxe
    | custInit i => simp [startEventPairs] at hxe
    | releaseEv => simp [startEventPairs] at hxe
    | procEnd => simp [startEventPairs] at hxe
  · refine ⟨r.arrival_time, mem_corePairs.mpr (Or.inr (Or.inr ⟨r, hr, ?_⟩))⟩
    rw [← hrx]
    rfl

theorem queue_sub_corePairs {s : SimState} {x : Nat × Nat}
    (hx : x ∈ s.putQueue) : x ∈ corePairs s :=
  mem_corePairs.mpr (Or.inr (Or.inl hx))

structure FifoInv (p : Params) (s : SimState) : Prop where
  uniqueInit : ∀ e ∈ s.heap, ∀ f ∈ s.heap, ∀ i j,
    e.kind = EvKind.custInit i → f.kind = EvKind.custInit j → e = f
  initBeforeGen : ∀ e ∈ s.heap, ∀ f ∈ s.heap, ∀ i n,
    e.kind = EvKind.custInit i → f.kind = EvKind.genTimeout n →
      e.time < f.time
  initDom : ∀ e ∈ s.heap, ∀ i, e.kind = EvKind.custInit i →
    ∀ x ∈ corePairs s, x.1 < i
  queueSorted : s.putQueue.Pairwise (fun x y => x.1 < y.1)
  startLtQueue : ∀ x ∈ startPairs s, ∀ y ∈ s.putQueue, x.1 < y.1
  startMono : ∀ x ∈ startPairs s, ∀ y ∈ startPairs s,
    x.1 < y.1 → x.2 ≤ y.2
  startLB : ∀ x ∈ startPairs s, x.2 ≤ s.now

theorem fifo_init (p : Params) : FifoInv p (initState p.sim_time) := by
  constructor <;>
    simp [initState, corePairs, startPairs, collect, coreEventPairs,
      startEventPairs]

/-- The FIFO invariant transports along heap/queue/record inclusion. -/
theorem corePairs_sub_of {s1 s2 : SimState}
    (hh : ∀ f ∈ s1.heap, f ∈ s2.heap)
    (hq : ∀ x ∈ s1.putQueue, x ∈ s2.putQueue)
    (hr : ∀ r ∈ s1.records, r ∈ s2.records) :
    ∀ x ∈ corePairs s1, x ∈ corePairs s2 := by
  intro x hx
  rcases mem_corePairs.mp hx with ⟨f, hf, hxf⟩ | hqx | ⟨r, hrr, hrx⟩
  · exact mem_corePairs.mpr (Or.inl ⟨f, hh f hf, hxf⟩)
  · exact mem_corePairs.mpr (Or.inr (Or.inl (hq x hqx)))
  · exact mem_corePairs.mpr (Or.inr (Or.inr ⟨r, hr r hrr, hrx⟩))

theorem startPairs_sub_of {s1 s2 : SimState}
    (hh : ∀ f ∈ s1.heap, f ∈ s2.heap)
    (hr : ∀ r ∈ s1.records, r ∈ s2.records) :
    ∀ x ∈ startPairs s1, x ∈ startPairs s2 := by
  intro x hx
  rcases mem_startPairs.mp hx with ⟨f, hf, hxf⟩ | ⟨r, hrr, hrx⟩
  · exact mem_startPairs.mpr (Or.inl ⟨f, hh f hf, hxf⟩)
  · exact mem_startPairs.mpr (Or.inr ⟨r, hr r hrr, hrx⟩)

theorem corePairs_sched_split {s : SimState} {d pr : Nat} {k : EvKind}
    {x : Nat × Nat} (hx : x ∈ corePairs (sched d pr k s)) :
    x ∈ coreEventPairs ⟨s.now + d, pr, s.nextEid, k⟩ ∨ x ∈ corePairs s := by
  rcases mem_corePairs.mp hx with ⟨f, hf, hxf⟩ | hq | hr
  · rcases mem_insertEv.mp hf with h1 | h2
    · exact Or.inl (h1 ▸ hxf)
    · exact Or.inr (mem_corePairs.mpr (Or.inl ⟨f, h2, hxf⟩))
  · exact Or.inr (mem_corePairs.mpr (Or.inr (Or.inl hq)))
  · exact Or.inr (mem_corePairs.mpr (Or.inr (Or.inr hr)))

theorem startPairs_sched_split {s : SimState} {d pr : Nat} {k : EvKind}
    {x : Nat × Nat} (hx : x ∈ startPairs (sched d pr k s)) :
    x ∈ startEventPairs ⟨s.now + d, pr, s.nextEid, k⟩ ∨
      x ∈ startPairs s := by
  rcases mem_startPairs.mp hx with ⟨f, hf, hxf⟩ | hr
  · rcases mem_insertEv.mp hf with h1 | h2
    · exact Or.inl (h1 ▸ hxf)
    · exact Or.inr (mem_startPairs.mpr (Or.inl ⟨f, h2, hxf⟩))
  · exact Or.inr (mem_startPairs.mpr (Or.inr hr))

/-- `_trigger_put` preserves the FIFO invariant: when a slot is free it
grants the HEAD of the queue (the longest-waiting customer), at the
current time. -/
theorem fifo_triggerPut {p : Params} {s : SimState}
    (hI : Inv p s) (hF : FifoInv p s) :
    FifoInv p (triggerPut p s) := by
  rcases hq : s.putQueue with _ | ⟨⟨i, a⟩, tl⟩
  · simpa [triggerPut, hq] using hF
  · by_cases hus : s.users < p.num_cashiers
    · have hheadq : (i, a) ∈ s.putQueue := by
        rw [hq]; exact List.mem_cons_self _ _
      have hqs : ∀ y ∈ tl, i < y.1 := by
        have h1 := hF.queueSorted
        rw [hq] at h1
        intro y hy
        exact (List.pairwise_cons.mp h1).1 y hy
      have hqs2 : tl.Pairwise (fun x y => x.1 < y.1) := by
        have h1 := hF.queueSorted
        rw [hq] at h1
        exact (List.pairwise_cons.mp h1).2
      have htl : ∀ y ∈ tl, y ∈ s.putQueue := by
        intro y hy
        rw [hq]; exact List.mem_cons_of_mem _ hy
      have hidlt : ∀ x ∈ startPairs s, x.1 < i :=
        fun x hx => hF.startLtQueue x hx (i, a) hheadq
      have hcsub : ∀ x ∈ corePairs
          (sched 0 1 (.reqGrant i a)
            { s with users := s.users + 1, putQueue := tl }),
          x ∈ corePairs s := by
        intro x hx
        rcases corePairs_sched_split hx with h1 | h1
        · simp [coreEventPairs] at h1
          rw [h1]
          exact queue_sub_corePairs hheadq
        · rcases mem_corePairs.mp h1 with ⟨f, hf, hxf⟩ | hqx | ⟨r, hrr, hrx⟩
          · exact mem_corePairs.mpr (Or.inl ⟨f, hf, hxf⟩)
          · exact mem_corePairs.mpr (Or.inr (Or.inl (htl x hqx)))
          · exact mem_corePairs.mpr (Or.inr (Or.inr ⟨r, hrr, hrx⟩))
      have hssplit : ∀ x ∈ startPairs
          (sched 0 1 (.reqGrant i a)
            { s with users := s.users + 1, putQueue := tl }),
          x = (i, s.now) ∨ x ∈ startPairs s := by
        intro x hx
        rcases startPairs_sched_split hx with h1 | h1
        · simp [startEventPairs] at h1
          exact Or.inl h1
        · rcases mem_startPairs.mp h1 with ⟨f, hf, hxf⟩ | ⟨r, hrr, hrx⟩
          · exact Or.inr (mem_startPairs.mpr (Or.inl ⟨f, hf, hxf⟩))
          · exact Or.inr (mem_startPairs.mpr (Or.inr ⟨r, hrr, hrx⟩))
      have hgoal : FifoInv p (sched 0 1 (.reqGrant i a)
          { s with users := s.users + 1, putQueue := tl }) := by
        refine ⟨?_, ?_, ?_, hqs2, ?_, ?_, ?_⟩
        · intro e he f hf j1 j2 hk1 hk2
          rcases mem_insertEv.mp he with h1 | h1
          · rw [h1] at hk1
            simp at hk1
          · rcases mem_insertEv.mp hf with h2 | h2
            · rw [h2] at hk2
              simp at hk2
            · exact hF.uniqueInit e h1 f h2 j1 j2 hk1 hk2
        · intro e he f hf j n hk1 hk2
          rcases mem_insertEv.mp he with h1 | h1
          · rw [h1] at hk1
            simp at hk1
          · rcases mem_insertEv.mp hf with h2 | h2
            · rw [h2] at hk2
              simp at hk2
            · exact hF.initBeforeGen e h1 f h2 j n hk1 hk2
        · intro e he j hk x hx
          rcases mem_insertEv.mp he with h1 | h1
          · rw [h1] at hk
            simp at hk
          · exact hF.initDom e h1 j hk x (hcsub x hx)
        · intro x hx y hy
          rcases hssplit x hx with h1 | h1
          · have e1 : x.1 = i := by rw [h1]
            have h2 := hqs y hy
            omega
          · exact hF.startLtQueue x h1 y (htl y hy)
        · intro x hx y hy hlt
          rcases hssplit x hx with h1 | h1 <;> rcases hssplit y hy with h2 | h2
          · have e1 : x.1 = i := by rw [h1]
            have e2 : y.1 = i := by rw [h2]
            omega
          · have e1 : x.1 = i := by rw [h1]
            have h3 := hidlt y h2
            omega
          · have e1 : y.1 = i := by rw [h2]
            have e2 : y.2 = s.now := by rw [h2]
            have h3 := hF.startLB x h1
            omega
          · exact hF.startMono x h1 y h2 hlt
        · intro x hx
          rcases hssplit x hx with h1 | h1
          · have e2 : x.2 = s.now := by rw [h1]
            show x.2 ≤ s.now
            omega
          · exact hF.startLB x h1
      simpa [triggerPut, hq, hus] using hgoal
    · simpa [triggerPut, hq, hus] using hF

theorem fifo_pos {p : Params} {s : SimState} (h : FifoInv p s) :
    FifoInv p { s with pos := s.pos + 1 } :=
  ⟨h.uniqueInit, h.initBeforeGen, h.initDom, h.queueSorted,
   h.startLtQueue, h.startMono, h.startLB⟩

/-- Scheduling an event that is neither a customer Initialize, nor a
generator timeout, nor a grant or service completion, preserves the FIFO
invariant. -/
theorem fifo_sched_quiet {p : Params} {s : SimState} {d pr : Nat}
    {k : EvKind} (hF : FifoInv p s)
    (hcore : coreEventPairs ⟨s.now + d, pr, s.nextEid, k⟩ = [])
    (hstart : startEventPairs ⟨s.now + d, pr, s.nextEid, k⟩ = [])
    (hnotInit : ∀ j, k ≠ EvKind.custInit j)
    (hnotGen : ∀ n, k ≠ EvKind.genTimeout n) :
    FifoInv p (sched d pr k s) := by
  have hcsub : ∀ x ∈ corePairs (sched d pr k s), x ∈ corePairs s := by
    intro x hx
    rcases corePairs_sched_split hx with h1 | h1
    · rw [hcore] at h1
      exact absurd h1 (List.not_mem_nil x)
    · exact h1
  have hssub : ∀ x ∈ startPairs (sched d pr k s), x ∈ startPairs s := by
    intro x hx
    rcases startPairs_sched_split hx with h1 | h1
    · rw [hstart] at h1
      exact absurd h1 (List.not_mem_nil x)
    · exact h1
  refine ⟨?_, ?_, ?_, hF.queueSorted, ?_, ?_, ?_⟩
  · intro e he f hf i j hk1 hk2
    rcases mem_insertEv.mp he with h1 | h1
    · rw [h1] at hk1
      exact absurd hk1 (hnotInit i)
    · rcases mem_insertEv.mp hf with h2 | h2
      · rw [h2] at hk2
        exact absurd hk2 (hnotInit j)
      · exact hF.uniqueInit e h1 f h2 i j hk1 hk2
  · intro e he f hf i n hk1 hk2
    rcases mem_insertEv.mp he with h1 | h1
    · rw [h1] at hk1
      exact absurd hk1 (hnotInit i)
    · rcases mem_insertEv.mp hf with h2 | h2
      · rw [h2] at hk2
        exact absurd hk2 (hnotGen n)
      · exact hF.initBeforeGen e h1 f h2 i n hk1 hk2
  · intro e he i hk x hx
    rcases mem_insertEv.mp he with h1 | h1
    · rw [h1] at hk
      exact absurd hk (hnotInit i)
    · exact hF.initDom e h1 i hk x (hcsub x hx)
  · intro x hx y hy
    exact hF.startLtQueue x (hssub x hx) y hy
  · intro x hx y hy hlt
    exact hF.startMono x (hssub x hx) y (hssub y hy) hlt
  · intro x hx
    exact hF.startLB x (hssub x hx)

/-- Scheduling a generator timeout preserves the FIFO invariant when no
customer Initialize event is pending. -/
theorem fifo_sched_gen {p : Params} {s : SimState} {n d : Nat}
    (hF : FifoInv p s)
    (hnoInit : ∀ f ∈ s.heap, ∀ j, f.kind ≠ EvKind.custInit j) :
    FifoInv p (sched d 1 (.genTimeout n) s) := by
  have hssub : ∀ x ∈ startPairs (sched d 1 (.genTimeout n) s),
      x ∈ startPairs s := by
    intro x hx
    rcases startPairs_sched_split hx with h1 | h1
    · simp [startEventPairs] at h1
    · exact h1
  refine ⟨?_, ?_, ?_, hF.queueSorted, ?_, ?_, ?_⟩
  · intro e he f hf i j hk1 hk2
    rcases mem_insertEv.mp he with h1 | h1
    · rw [h1] at hk1
      simp at hk1
    · exact absurd hk1 (hnoInit e h1 i)
  · intro e he f hf i m hk1 hk2
    rcases mem_insertEv.mp he with h1 | h1
    · rw [h1] at hk1
      simp at hk1
    · exact absurd hk1 (hnoInit e h1 i)
  · intro e he i hk x hx
    rcases mem_insertEv.mp he with h1 | h1
    · rw [h1] at hk
      simp at hk
    · exact absurd hk (hnoInit e h1 i)
  · intro x hx y hy
    exact hF.startLtQueue x (hssub x hx) y hy
  · intro x hx y hy hlt
    exact hF.startMono x (hssub x hx) y (hssub y hy) hlt
  · intro x hx
    exact hF.startLB x (hssub x hx)

/-- Scheduling a service completion for the customer just granted a slot
preserves the FIFO invariant. -/
theorem fifo_sched_svc {p : Params} {s : SimState} {i a st d : Nat}
    (hF : FifoInv p s)
    (hstq : ∀ y ∈ s.putQueue, i < y.1)
    (hmono1 : ∀ y ∈ startPairs s, i < y.1 → st ≤ y.2)
    (hmono2 : ∀ y ∈ startPairs s, y.1 < i → y.2 ≤ st)
    (hdomc : ∀ e ∈ s.heap, ∀ j, e.kind = EvKind.custInit j → i < j)
    (hstnow : st ≤ s.now) :
    FifoInv p (sched d 1 (.svcDone i a st d) s) := by
  have hcsplit : ∀ x ∈ corePairs (sched d 1 (.svcDone i a st d) s),
      x = (i, a) ∨ x ∈ corePairs s := by
    intro x hx
    rcases corePairs_sched_split hx with h1 | h1
    · simp [coreEventPairs] at h1
      exact Or.inl h1
    · exact Or.inr h1
  have hssplit : ∀ x ∈ startPairs (sched d 1 (.svcDone i a st d) s),
      x = (i, st) ∨ x ∈ startPairs s := by
    intro x hx
    rcases startPairs_sched_split hx with h1 | h1
    · simp [startEventPairs] at h1
      exact Or.inl h1
    · exact Or.inr h1
  refine ⟨?_, ?_, ?_, hF.queueSorted, ?_, ?_, ?_⟩
  · intro e he f hf i1 j1 hk1 hk2
    rcases mem_insertEv.mp he with h1 | h1
    · rw [h1] at hk1
      simp at hk1
    · rcases mem_insertEv.mp hf with h2 | h2
      · rw [h2] at hk2
        simp at hk2
      · exact hF.uniqueInit e h1 f h2 i1 j1 hk1 hk2
  · intro e he f hf i1 n1 hk1 hk2
    rcases mem_insertEv.mp he with h1 | h1
    · rw [h1] at hk1
      simp at hk1
    · rcases mem_insertEv.mp hf with h2 | h2
      · rw [h2] at hk2
        simp at hk2
      · exact hF.initBeforeGen e h1 f h2 i1 n1 hk1 hk2
  · intro e he j hk x hx
    rcases mem_insertEv.mp he with h1 | h1
    · rw [h1] at hk
      simp at hk
    · rcases hcsplit x hx with h2 | h2
      · have e1 : x.1 = i := by rw [h2]
        have h3 := hdomc e h1 j hk
        omega
      · exact hF.initDom e h1 j hk x h2
  · intro x hx y hy
    rcases hssplit x hx with h1 | h1
    · have e1 : x.1 = i := by rw [h1]
      have h2 := hstq y hy
      omega
    · exact hF.startLtQueue x h1 y hy
  · intro x hx y hy hlt
    rcases hssplit x hx with h1 | h1 <;> rcases hssplit y hy with h2 | h2
    · have e1 : x.1 = i := by rw [h1]
      have e2 : y.1 = i := by rw [h2]
      omega
    · have e1 : x.1 = i := by rw [h1]
      have e2 : x.2 = st := by rw [h1]
      have h4 : st ≤ y.2 := hmono1 y h2 (by omega)
      omega
    · have e1 : y.1 = i := by rw [h2]
      have e2 : y.2 = st := by rw [h2]
      have h4 : x.2 ≤ st := hmono2 x h1 (by omega)
      omega
    · exact hF.startMono x h1 y h2 hlt
  · intro x hx
    rcases hssplit x hx with h1 | h1
    · have e2 : x.2 = st := by rw [h1]
      show x.2 ≤ s.now
      omega
    · exact hF.startLB x h1

/-- Appending a completed customer's record preserves the FIFO
invariant. -/
theorem fifo_addRecord {p : Params} {s : SimState} {r : Record}
    (hF : FifoInv p s)
    (hstq : ∀ y ∈ s.putQueue, r.customer_id < y.1)
    (hmono1 : ∀ y ∈ startPairs s, r.customer_id < y.1 →
      r.start_service ≤ y.2)
    (hmono2 : ∀ y ∈ startPairs s, y.1 < r.customer_id →
      y.2 ≤ r.start_service)
    (hdomc : ∀ e ∈ s.heap, ∀ j, e.kind = EvKind.custInit j →
      r.customer_id < j)
    (hstnow : r.start_service ≤ s.now) :
    FifoInv p { s with records := s.records ++ [r], users := s.users - 1 } := by
  have hcsplit : ∀ x ∈
      corePairs { s with records := s.records ++ [r], users := s.users - 1 },
      x = recPair r ∨ x ∈ corePairs s := by
    intro x hx
    rcases mem_corePairs.mp hx with ⟨f, hf, hxf⟩ | hq | ⟨r2, hr2, hrx⟩
    · exact Or.inr (mem_corePairs.mpr (Or.inl ⟨f, hf, hxf⟩))
    · exact Or.inr (mem_corePairs.mpr (Or.inr (Or.inl hq)))
    · rcases List.mem_append.mp hr2 with h1 | h1
      · exact Or.inr (mem_corePairs.mpr (Or.inr (Or.inr ⟨r2, h1, hrx⟩)))
      · simp at h1
        exact Or.inl (by rw [← hrx, h1])
  have hssplit : ∀ x ∈
      startPairs { s with records := s.records ++ [r], users := s.users - 1 },
      x = recStartPair r ∨ x ∈ startPairs s := by
    intro x hx
    rcases mem_startPairs.mp hx with ⟨f, hf, hxf⟩ | ⟨r2, hr2, hrx⟩
    · exact Or.inr (mem_startPairs.mpr (Or.inl ⟨f, hf, hxf⟩))
    · rcases List.mem_append.mp hr2 with h1 | h1
      · exact Or.inr (mem_startPairs.mpr (Or.inr ⟨r2, h1, hrx⟩))
      · simp at h1
        exact Or.inl (by rw [← hrx, h1])
  refine ⟨hF.uniqueInit, hF.initBeforeGen, ?_, hF.queueSorted, ?_, ?_, ?_⟩
  · intro e he j hk x hx
    rcases hcsplit x hx with h1 | h1
    · have e1 : x.1 = r.customer_id := by simp [h1, recPair]
      have h3 := hdomc e he j hk
      omega
    · exact hF.initDom e he j hk x h1
  · intro x hx y hy
    rcases hssplit x hx with h1 | h1
    · have e1 : x.1 = r.customer_id := by simp [h1, recStartPair]
      have h2 := hstq y hy
      omega
    · exact hF.startLtQueue x h1 y hy
  · intro x hx y hy hlt
    rcases hssplit x hx with h1 | h1 <;> rcases hssplit y hy with h2 | h2
    · have e1 : x.1 = r.customer_id := by simp [h1, recStartPair]
      have e2 : y.1 = r.customer_id := by simp [h2, recStartPair]
      omega
    · have e1 : x.1 = r.customer_id := by simp [h1, recStartPair]
      have e2 : x.2 = r.start_service := by simp [h1, recStartPair]
      have h4 : r.start_service ≤ y.2 := hmono1 y h2 (by omega)
      omega
    · have e1 : y.1 = r.customer_id := by simp [h2, recStartPair]
      have e2 : y.2 = r.start_service := by simp [h2, recStartPair]
      have h4 : x.2 ≤ r.start_service := hmono2 x h1 (by omega)
      omega
    · exact hF.startMono x h1 y h2 hlt
  · intro x hx
    rcases hssplit x hx with h1 | h1
    · have e2 : x.2 = r.start_service := by simp [h1, recStartPair]
      show x.2 ≤ s.now
      omega
    · exact hF.startLB x h1

/-- One step of the event loop preserves the FIFO invariant, provided
interarrival gaps are positive (`min_interarrival ≥ 1`). -/
theorem fifo_step {p : Params} {stream : Nat → Nat} {s : SimState}
    (hmini : 1 ≤ p.min_interarrival) (hI : Inv p s) (hF : FifoInv p s) :
    FifoInv p (step p stream s) := by
  obtain ⟨now, heap, nid, us, q, recs, pos, hl⟩ := s
  cases hl with
  | true => exact hF
  | false =>
    cases heap with
    | nil =>
      exact ⟨hF.uniqueInit, hF.initBeforeGen, hF.initDom, hF.queueSorted,
        hF.startLtQueue, hF.startMono, hF.startLB⟩
    | cons e rest =>
      obtain ⟨t, pr, eid0, k⟩ := e
      have hnow_le : now ≤ t := hI.timeLB _ (List.mem_cons_self _ _)
      have hmemR : ∀ f ∈ rest, f ∈ (⟨t, pr, eid0, k⟩ : Event) :: rest :=
        fun f hf => List.mem_cons_of_mem _ hf
      have hcsub : ∀ x ∈ corePairs
          ((⟨t, rest, nid, us, q, recs, pos, false⟩ : SimState)),
          x ∈ corePairs
          ((⟨now, ⟨t, pr, eid0, k⟩ :: rest, nid, us, q, recs, pos,
            false⟩ : SimState)) :=
        corePairs_sub_of hmemR (fun x hx => hx) (fun r hr => hr)
      have hssub : ∀ x ∈ startPairs
          ((⟨t, rest, nid, us, q, recs, pos, false⟩ : SimState)),
          x ∈ startPairs
          ((⟨now, ⟨t, pr, eid0, k⟩ :: rest, nid, us, q, recs, pos,
            false⟩ : SimState)) :=
        startPairs_sub_of hmemR (fun r hr => hr)
      have hsubState : ∀ x ∈ statePairs
          ((⟨t, rest, nid, us, q, recs, pos, false⟩ : SimState)),
          x ∈ statePairs
          ((⟨now, ⟨t, pr, eid0, k⟩ :: rest, nid, us, q, recs, pos,
            false⟩ : SimState)) :=
        statePairs_sub_of_heap hmemR (fun x hx => hx) (fun r hr => hr)
      have hFpop : FifoInv p
          ((⟨t, rest, nid, us, q, recs, pos, false⟩ : SimState)) := by
        refine ⟨?_, ?_, ?_, hF.queueSorted, ?_, ?_, ?_⟩
        · intro e1 he1 f1 hf1 i j hk1 hk2
          exact hF.uniqueInit e1 (hmemR e1 he1) f1 (hmemR f1 hf1) i j hk1 hk2
        · intro e1 he1 f1 hf1 i n hk1 hk2
          exact hF.initBeforeGen e1 (hmemR e1 he1) f1 (hmemR f1 hf1) i n
            hk1 hk2
        · intro e1 he1 i hk1 x hx
          exact hF.initDom e1 (hmemR e1 he1) i hk1 x (hcsub x hx)
        · intro x hx y hy
          exact hF.startLtQueue x (hssub x hx) y hy
        · intro x hx y hy hlt
          exact hF.startMono x (hssub x hx) y (hssub y hy) hlt
        · intro x hx
          exact le_trans (hF.startLB x (hssub x hx)) hnow_le
      cases k with
      | stop =>
        exact ⟨hFpop.uniqueInit, hFpop.initBeforeGen, hFpop.initDom,
          hFpop.queueSorted, hFpop.startLtQueue, hFpop.startMono,
          hFpop.startLB⟩
      | procEnd => exact hFpop
      | releaseEv =>
        exact fifo_triggerPut (inv_pop hI rfl (by simp)) hFpop
      | genInit =>
        have hgieE := hI.genInitEmpty _ (List.mem_cons_self _ _) rfl
        have hnoInitRest : ∀ f ∈ rest, ∀ j, f.kind ≠ EvKind.custInit j := by
          intro f hf j hfk
          exact hgieE (j, f.time) (mem_statePairs.mpr
            (Or.inl ⟨f, hmemR f hf, by simp [eventPairs, hfk]⟩))
        exact fifo_sched_gen (fifo_pos hFpop)
          (fun f hf j => hnoInitRest f hf j)
      | genTimeout n =>
        have hdomE := hI.genDom _ (List.mem_cons_self _ _) n rfl
        have hnoGenRest : ∀ f ∈ rest, ¬ isGen f.kind :=
          popped_gen_unique hI rfl (by trivial)
        have hnoInitRest : ∀ f ∈ rest, ∀ j, f.kind ≠ EvKind.custInit j := by
          intro f hf j hfk
          have h2b : f.time < t := hF.initBeforeGen f (hmemR f hf) _
            (List.mem_cons_self _ _) j n hfk rfl
          have h3b : t ≤ f.time :=
            keyLe_time ((List.pairwise_cons.mp hI.sorted).1 f hf)
          omega
        have hstartS1 : ∀ x, x ∈ startPairs
            ((⟨t, insertEv ⟨t + 0, 0, nid, EvKind.custInit n⟩ rest, nid + 1,
              us, q, recs, pos + 1, false⟩ : SimState)) →
            x ∈ startPairs
            ((⟨t, rest, nid, us, q, recs, pos, false⟩ : SimState)) := by
          intro x hx
          rcases mem_startPairs.mp hx with ⟨f, hf, hxf⟩ | hr
          · rcases mem_insertEv.mp hf with h1 | h1
            · rw [h1] at hxf
              simp [startEventPairs] at hxf
            · exact mem_startPairs.mpr (Or.inl ⟨f, h1, hxf⟩)
          · exact mem_startPairs.mpr (Or.inr hr)
        have hcoreS1 : ∀ x, x ∈ corePairs
            ((⟨t, insertEv ⟨t + 0, 0, nid, EvKind.custInit n⟩ rest, nid + 1,
              us, q, recs, pos + 1, false⟩ : SimState)) →
            x ∈ corePairs
            ((⟨t, rest, nid, us, q, recs, pos, false⟩ : SimState)) := by
          intro x hx
          rcases mem_corePairs.mp hx with ⟨f, hf, hxf⟩ | hq2 | hr
          · rcases mem_insertEv.mp hf with h1 | h1
            · rw [h1] at hxf
              simp [coreEventPairs] at hxf
            · exact mem_corePairs.mpr (Or.inl ⟨f, h1, hxf⟩)
          · exact mem_corePairs.mpr (Or.inr (Or.inl hq2))
          · exact mem_corePairs.mpr (Or.inr (Or.inr hr))
        refine ⟨?_, ?_, ?_, hF.queueSorted, ?_, ?_, ?_⟩
        · intro e1 he1 f1 hf1 i j hk1 hk2
          rcases mem_insertEv.mp he1 with h1 | h1
          · rw [h1] at hk1
            simp at hk1
          · rcases mem_insertEv.mp h1 with h1a | h1a
            · rcases mem_insertEv.mp hf1 with h2 | h2
              · rw [h2] at hk2
                simp at hk2
              · rcases mem_insertEv.mp h2 with h2a | h2a
                · rw [h1a, h2a]
                · exact absurd hk2 (hnoInitRest f1 h2a j)
            · exact absurd hk1 (hnoInitRest e1 h1a i)
        · intro e1 he1 f1 hf1 i m hk1 hk2
          rcases mem_insertEv.mp he1 with h1 | h1
          · rw [h1] at hk1
            simp at hk1
          · rcases mem_insertEv.mp h1 with h1a | h1a
            · rcases mem_insertEv.mp hf1 with h2 | h2
              · rw [h1a, h2]
                show t + 0 < t +
                  randint p.min_interarrival p.max_interarrival (stream pos)
                have hg : 1 ≤ randint p.min_interarrival p.max_interarrival
                    (stream pos) :=
                  le_trans hmini (randint_ge _ _ _)
                omega
              · rcases mem_insertEv.mp h2 with h2a | h2a
                · rw [h2a] at hk2
                  simp at hk2
                · exact absurd (show isGen f1.kind by rw [hk2]; trivial)
                    (hnoGenRest f1 h2a)
            · exact absurd hk1 (hnoInitRest e1 h1a i)
        · intro e1 he1 i hk x hx
          rcases mem_insertEv.mp he1 with h1 | h1
          · rw [h1] at hk
            simp at hk
          · rcases mem_insertEv.mp h1 with h1a | h1a
            · rw [h1a] at hk
              simp at hk
              subst hk
              rcases corePairs_sched_split hx with h3 | h3
              · simp [coreEventPairs] at h3
              · have h4 := hcoreS1 x h3
                have h5 := hdomE x
                  (hsubState x (corePairs_sub_statePairs h4))
                exact h5.1
            · exact absurd hk (hnoInitRest e1 h1a i)
        · intro x hx y hy
          rcases startPairs_sched_split hx with h3 | h3
          · simp [startEventPairs] at h3
          · exact hFpop.startLtQueue x (hstartS1 x h3) y hy
        · intro x hx y hy hlt
          rcases startPairs_sched_split hx with h3 | h3
          · simp [startEventPairs] at h3
          · rcases startPairs_sched_split hy with h4 | h4
            · simp [startEventPairs] at h4
            · exact hFpop.startMono x (hstartS1 x h3) y (hstartS1 y h4) hlt
        · intro x hx
          rcases startPairs_sched_split hx with h3 | h3
          · simp [startEventPairs] at h3
          · exact hFpop.startLB x (hstartS1 x h3)
      | custInit i =>
        have h1 := inv_pop hI rfl (by simp)
        have hwfE := hI.hwf _ (List.mem_cons_self _ _)
        simp only [EvWF] at hwfE
        have hpair : (i, t) ∈ statePairs
            ((⟨now, ⟨t, pr, eid0, EvKind.custInit i⟩ :: rest, nid, us, q,
              recs, pos, false⟩ : SimState)) :=
          mem_statePairs.mpr
            (Or.inl ⟨_, List.mem_cons_self _ _, by simp [eventPairs]⟩)
        have hInv2 := inv_pushQueue h1 hwfE.1 (Nat.le_refl t) hwfE.2.1
          (fun y hy hlt => hI.pairsMono (i, t) hpair y (hsubState y hy) hlt)
          (fun y hy hlt => hI.pairsMono y (hsubState y hy) (i, t) hpair hlt)
          (fun f hf n hkf => hI.genDom f (hmemR f hf) n hkf (i, t) hpair)
          (fun f hf hkf => hI.genInitEmpty f (hmemR f hf) hkf (i, t) hpair)
        have hidom := hF.initDom _ (List.mem_cons_self _ _) i rfl
        have hnoInitRest : ∀ f ∈ rest, ∀ j, f.kind ≠ EvKind.custInit j := by
          intro f hf j hfk
          have hfeq := hF.uniqueInit f (hmemR f hf) _
            (List.mem_cons_self _ _) j i hfk rfl
          have hnd := hI.eidNodup
          subst hfeq
          exact (List.pairwise_cons.mp hnd).1 _ hf rfl
        have hF2 : FifoInv p
            ((⟨t, rest, nid, us, q ++ [(i, t)], recs, pos,
              false⟩ : SimState)) := by
          refine ⟨?_, ?_, ?_, ?_, ?_, ?_, ?_⟩
          · intro e1 he1 f1 hf1 i1 j1 hk1 hk2
            exact absurd hk1 (hnoInitRest e1 he1 i1)
          · intro e1 he1 f1 hf1 i1 n1 hk1 hk2
            exact absurd hk1 (hnoInitRest e1 he1 i1)
          · intro e1 he1 i1 hk1 x hx
            exact absurd hk1 (hnoInitRest e1 he1 i1)
          · refine List.pairwise_append.mpr ⟨hF.queueSorted, by simp, ?_⟩
            intro yy hyy zz hzz
            simp at hzz
            have h3 := hidom yy (queue_sub_corePairs hyy)
            have e1 : zz.1 = i := by rw [hzz]
            omega
          · intro x hx y hy
            have hx2 := hssub x hx
            rcases List.mem_append.mp hy with h3 | h3
            · exact hF.startLtQueue x hx2 y h3
            · simp at h3
              obtain ⟨a2, hc⟩ := startPairs_id hx2
              have h4 : x.1 < i := hidom (x.1, a2) hc
              have e1 : y.1 = i := by rw [h3]
              omega
          · intro x hx y hy hlt
            exact hF.startMono x (hssub x hx) y (hssub y hy) hlt
          · intro x hx
            exact le_trans (hF.startLB x (hssub x hx)) hnow_le
        exact fifo_triggerPut hInv2 hF2
      | reqGrant i a =>
        have hwfE := hI.hwf _ (List.mem_cons_self _ _)
        simp only [EvWF] at hwfE
        have hspair : (i, t) ∈ startPairs
            ((⟨now, ⟨t, pr, eid0, EvKind.reqGrant i a⟩ :: rest, nid, us, q,
              recs, pos, false⟩ : SimState)) :=
          mem_startPairs.mpr
            (Or.inl ⟨_, List.mem_cons_self _ _, by simp [startEventPairs]⟩)
        have hcpair : (i, a) ∈ corePairs
            ((⟨now, ⟨t, pr, eid0, EvKind.reqGrant i a⟩ :: rest, nid, us, q,
              recs, pos, false⟩ : SimState)) :=
          mem_corePairs.mpr
            (Or.inl ⟨_, List.mem_cons_self _ _, by simp [coreEventPairs]⟩)
        exact fifo_sched_svc (fifo_pos hFpop)
          (fun y hy => hF.startLtQueue (i, t) hspair y hy)
          (fun y hy hlt => hF.startMono (i, t) hspair y (hssub y hy) hlt)
          (fun y hy hlt => hF.startMono y (hssub y hy) (i, t) hspair hlt)
          (fun e1 he1 j hk => hF.initDom e1 (hmemR e1 he1) j hk (i, a)
            hcpair)
          (Nat.le_refl t)
      | svcDone i a st d =>
        have hwfE := hI.hwf _ (List.mem_cons_self _ _)
        simp only [EvWF] at hwfE
        obtain ⟨hminia, hast, hasim, hstnow, hsum, hmins, hprio⟩ := hwfE
        have hspair : (i, st) ∈ startPairs
            ((⟨now, ⟨t, pr, eid0, EvKind.svcDone i a st d⟩ :: rest, nid, us,
              q, recs, pos, false⟩ : SimState)) :=
          mem_startPairs.mpr
            (Or.inl ⟨_, List.mem_cons_self _ _, by simp [startEventPairs]⟩)
        have hcpair : (i, a) ∈ corePairs
            ((⟨now, ⟨t, pr, eid0, EvKind.svcDone i a st d⟩ :: rest, nid, us,
              q, recs, pos, false⟩ : SimState)) :=
          mem_corePairs.mpr
            (Or.inl ⟨_, List.mem_cons_self _ _, by simp [coreEventPairs]⟩)
        have hF2 := @fifo_addRecord p
          ⟨t, rest, nid, us, q, recs, pos, false⟩
          ⟨i, a, st, t, (st : Int) - (a : Int), d,
            (t : Int) - (a : Int)⟩ hFpop
          (fun y hy => hF.startLtQueue (i, st) hspair y hy)
          (fun y hy hlt => hF.startMono (i, st) hspair y (hssub y hy) hlt)
          (fun y hy hlt => hF.startMono y (hssub y hy) (i, st) hspair hlt)
          (fun e1 he1 j hk => hF.initDom e1 (hmemR e1 he1) j hk (i, a)
            hcpair)
          (show st ≤ t by omega)
        exact fifo_sched_quiet
          (fifo_sched_quiet hF2 (by simp [coreEventPairs])
            (by simp [startEventPairs]) (fun j h2 => nomatch h2)
            (fun n h2 => nomatch h2))
          (by simp [coreEventPairs]) (by simp [startEventPairs])
          (fun j h2 => nomatch h2) (fun n h2 => nomatch h2)

theorem fifo_simLoop {p : Params} {stream : Nat → Nat} (fuel : Nat)
    {s : SimState} (hmini : 1 ≤ p.min_interarrival) (hI : Inv p s)
    (hF : FifoInv p s) :
    FifoInv p (simLoop p stream fuel s) := by
  induction fuel generalizing s with
  | zero => simpa [simLoop] using hF
  | succ n ih =>
    simp only [simLoop]
    exact ih (inv_step hI) (fifo_step hmini hI hF)

/-- The FIFO invariant holds of the final state of every engine
invocation with positive minimum interarrival. -/
theorem fifo_finalState (nc st mini maxi mins maxs seed : Nat)
    (hmini : 1 ≤ mini) :
    FifoInv ⟨nc, st, mini, maxi, mins, maxs⟩
      (finalState nc st mini maxi mins maxs seed) :=
  fifo_simLoop _ hmini (inv_init ⟨nc, st, mini, maxi, mins, maxs⟩)
    (fifo_init ⟨nc, st, mini, maxi, mins, maxs⟩)

/-- C8: slots are acquired in FIFO arrival order (for positive minimum
interarrival, as the app's input form guarantees).  First conjunct: a
customer whose Initialize event fires while the request queue is empty
and a slot is free (`users < num_cashiers`) is granted immediately — the
step schedules its grant `reqGrant` at the very time of arrival, so
`start_service = arrival_time`.  Second conjunct: grants follow arrival
order globally — in any run, records of customers with smaller ids have
service start times no later than those of customers with larger ids
(the queue head, i.e. the earliest-arrived waiting customer, is the only
request a freed slot can go to). -/
theorem fifo_service_order
    (nc st mini maxi mins maxs seed : Nat) (g0 : PyRandState)
    (hmini : 1 ≤ mini) :
    (∀ (stream : Nat → Nat) (now : Nat) (rest : List Event)
        (nid us : Nat) (recs : List Record) (pos t pr eid0 i : Nat),
      us < nc →
      ∃ f ∈ (step ⟨nc, st, mini, maxi, mins, maxs⟩ stream
          ⟨now, ⟨t, pr, eid0, .custInit i⟩ :: rest, nid, us, [], recs, pos,
            false⟩).heap,
        f.kind = EvKind.reqGrant i t ∧ f.time = t) ∧
    (∀ r1 ∈ (run_simulation nc st mini maxi mins maxs seed g0).1,
      ∀ r2 ∈ (run_simulation nc st mini maxi mins maxs seed g0).1,
        r1.customer_id < r2.customer_id →
          r1.start_service ≤ r2.start_service) := by
  constructor
  · intro stream now rest nid us recs pos t pr eid0 i hus
    have htp : (step ⟨nc, st, mini, maxi, mins, maxs⟩ stream
        ⟨now, ⟨t, pr, eid0, .custInit i⟩ :: rest, nid, us, [], recs, pos,
          false⟩) =
        sched 0 1 (.reqGrant i t)
          ⟨t, rest, nid, us + 1, [], recs, pos, false⟩ := by
      simp [step, triggerPut, hus]
    rw [htp]
    exact ⟨⟨t + 0, 1, nid, .reqGrant i t⟩, mem_insertEv.mpr (Or.inl rfl),
      rfl, rfl⟩
  · intro r1 h1 r2 h2 hlt
    have hfifo := fifo_finalState nc st mini maxi mins maxs seed hmini
    have hm1 : recStartPair r1 ∈ startPairs
        (finalState nc st mini maxi mins maxs seed) :=
      mem_startPairs.mpr (Or.inr ⟨r1, h1, rfl⟩)
    have hm2 : recStartPair r2 ∈ startPairs
        (finalState nc st mini maxi mins maxs seed) :=
      mem_startPairs.mpr (Or.inr ⟨r2, h2, rfl⟩)
    exact hfifo.startMono (recStartPair r1) hm1 (recStartPair r2) hm2 hlt

theorem fifo_service_order_witness :
    (⟨1, 2, 2, 5, 0, 3, 3⟩ : Record).start_service ≤
      (⟨2, 4, 5, 8, 1, 3, 4⟩ : Record).start_service :=
  (fifo_service_order 1 10 2 2 3 3 0 ⟨mtStream 0, 0⟩ (by decide)).2
    ⟨1, 2, 2, 5, 0, 3, 3⟩ (by decide) ⟨2, 4, 5, 8, 1, 3, 4⟩ (by decide)
    (by decide)

end App
